import Mathlib

/-!
# Verification of the zerogit core against its specification

This file gives a shallow embedding of the parts of the `zerogit` library
(a pure-Rust Git implementation) that the specification's claims are about:

* `src/infra/hash.rs`   — SHA-1 and `hash_object`
* `src/objects/oid.rs`  — object identifiers, hex codec
* `src/objects/store.rs`— loose-object parsing, prefix search
* `src/refs/resolver.rs`— recursive reference resolution
* `src/status.rs`       — three-way status classification
* `src/diff/mod.rs`     — exact-rename detection
* `src/index/{reader,writer}.rs` — binary index codec
* `src/log.rs`          — log iterator and date parsing
* `src/repository.rs`   — short-OID resolution

Rust byte strings are modelled as `List Nat` (each element a byte value),
machine integers as `Nat`/`Int` with explicit `% 2^w` where the source wraps,
and fallible operations as `Option`/`Except`.  Filesystem state is modelled
by explicit finite maps passed to the functions that read it.
-/

namespace ZeroGit

/-! ## Byte and 32-bit word primitives (src/infra/hash.rs uses u32/u64) -/

/-- 2^32, the modulus for `u32` arithmetic. -/
def U32 : Nat := 4294967296

/-- Wrapping `u32` addition (`u32::wrapping_add`). -/
def add32 (a b : Nat) : Nat := (a + b) % U32

/-- Bitwise complement on a `u32` (`!b` in Rust). -/
def not32 (a : Nat) : Nat := Nat.xor a 4294967295

/-- `u32::rotate_left`. -/
def rotl32 (a n : Nat) : Nat :=
  ((a <<< n) % U32) ||| (a >>> (32 - n))

/-- Big-endian bytes of a `u32` (`u32::to_be_bytes`). -/
def u32ToBytes (w : Nat) : List Nat :=
  [(w >>> 24) % 256, (w >>> 16) % 256, (w >>> 8) % 256, w % 256]

/-- Big-endian bytes of a `u64` (`u64::to_be_bytes`). -/
def u64ToBytes (w : Nat) : List Nat :=
  [(w >>> 56) % 256, (w >>> 48) % 256, (w >>> 40) % 256, (w >>> 32) % 256,
   (w >>> 24) % 256, (w >>> 16) % 256, (w >>> 8) % 256, w % 256]

/-- `u32::from_be_bytes` on four bytes. -/
def u32FromBytes (b0 b1 b2 b3 : Nat) : Nat :=
  b0 <<< 24 ||| b1 <<< 16 ||| b2 <<< 8 ||| b3

/-! ## SHA-1 (src/infra/hash.rs)

The Rust code keeps an incremental `Sha1State`; feeding all data in one
`update` call processes each complete 64-byte block in order and then
`finalize` pads the remainder (`0x80`, zeros, 8-byte big-endian bit length)
and processes the final one or two blocks.  `sha1` below performs exactly
that computation on the whole input. -/

/-- SHA-1 round constants `K` from src/infra/hash.rs. -/
def sha1K (i : Nat) : Nat :=
  if i < 20 then 0x5A827999
  else if i < 40 then 0x6ED9EBA1
  else if i < 60 then 0x8F1BBCDC
  else 0xCA62C1D6

/-- SHA-1 round function `f` (the `match` in `process_block`). -/
def sha1F (i b c d : Nat) : Nat :=
  if i < 20 then (b &&& c) ||| ((not32 b) &&& d)
  else if i < 40 then Nat.xor (Nat.xor b c) d
  else if i < 60 then (b &&& c) ||| (b &&& d) ||| (c &&& d)
  else Nat.xor (Nat.xor b c) d

/-- Message-schedule extension: given the 16 initial words, extend to 80. -/
def sha1Schedule : Nat → List Nat → List Nat
  | 0, w => w
  | n+1, w =>
    let i := w.length
    let x := Nat.xor (Nat.xor (w.getD (i-3) 0) (w.getD (i-8) 0))
             (Nat.xor (w.getD (i-14) 0) (w.getD (i-16) 0))
    sha1Schedule n (w ++ [rotl32 x 1])

/-- One round of the SHA-1 main loop on working variables `(a,b,c,d,e)`. -/
def sha1Round (w : List Nat) (i : Nat) :
    Nat × Nat × Nat × Nat × Nat → Nat × Nat × Nat × Nat × Nat
  | (a, b, c, d, e) =>
    let temp := add32 (rotl32 a 5)
      (add32 (sha1F i b c d) (add32 e (add32 (sha1K i) (w.getD i 0))))
    (temp, a, rotl32 b 30, c, d)

/-- `process_block`: fold one 64-byte block into the five-word state. -/
def processBlock (h : List Nat) (block : List Nat) : List Nat :=
  let w16 := (List.range 16).map fun i =>
    u32FromBytes (block.getD (i*4) 0) (block.getD (i*4+1) 0)
      (block.getD (i*4+2) 0) (block.getD (i*4+3) 0)
  let w := sha1Schedule 64 w16
  let init := (h.getD 0 0, h.getD 1 0, h.getD 2 0, h.getD 3 0, h.getD 4 0)
  let fin := (List.range 80).foldl (fun st i => sha1Round w i st) init
  match fin with
  | (a, b, c, d, e) =>
    [add32 (h.getD 0 0) a, add32 (h.getD 1 0) b, add32 (h.getD 2 0) c,
     add32 (h.getD 3 0) d, add32 (h.getD 4 0) e]

/-- Process `n` consecutive 64-byte blocks of `data` into the state. -/
def sha1Blocks : Nat → List Nat → List Nat → List Nat
  | 0, h, _ => h
  | n+1, h, data => sha1Blocks n (processBlock h (data.take 64)) (data.drop 64)

/-- `finalize`: pad the trailing partial block and produce the 20 digest
bytes.  `rest` is `data` minus its complete blocks, `totalLen` the full
message length in bytes. -/
def sha1Final (h : List Nat) (rest : List Nat) (totalLen : Nat) : List Nat :=
  let bitLen := (totalLen * 8) % (2^64)
  let buf := rest ++ [0x80]
  let h' :=
    if buf.length > 56 then
      let block := buf ++ List.replicate (64 - buf.length) 0
      let h2 := processBlock h block
      processBlock h2 (List.replicate 56 0 ++ u64ToBytes bitLen)
    else
      processBlock h (buf ++ List.replicate (56 - buf.length) 0 ++ u64ToBytes bitLen)
  h'.flatMap u32ToBytes

/-- Initial SHA-1 state `H0..H4`. -/
def sha1Init : List Nat := [0x67452301, 0xEFCDAB89, 0x98BADCFE, 0x10325476, 0xC3D2E1F0]

/-- `sha1(data)`: the 20-byte SHA-1 digest of `data`. -/
def sha1 (data : List Nat) : List Nat :=
  let nblocks := data.length / 64
  let h := sha1Blocks nblocks sha1Init data
  sha1Final h (data.drop (nblocks * 64)) data.length

/-- ASCII decimal digits of `n`, most significant first, with enough fuel. -/
def toDecAux : Nat → Nat → List Nat
  | 0, n => [48 + n % 10]
  | fuel+1, n => if n < 10 then [48 + n] else toDecAux fuel (n / 10) ++ [48 + n % 10]

/-- ASCII decimal digits of `n`, most significant first
(the output of Rust's `format!("{}", n)` for an unsigned integer). -/
def toDec (n : Nat) : List Nat := toDecAux n n

/-- Byte list of an ASCII string literal. -/
def asciiBytes (s : String) : List Nat := s.data.map Char.toNat

/-- `hash_object(type, content)`: SHA-1 of `"<type> <size>\0<content>"`
(src/infra/hash.rs lines 180-186; the two `update` calls are equivalent to
one call on the concatenation). -/
def hashObject (objectType : List Nat) (content : List Nat) : List Nat :=
  sha1 (objectType ++ [32] ++ toDec content.length ++ [0] ++ content)

/-! ## Errors (src/error.rs)

The closed error taxonomy.  The Rust variants carry diagnostic payloads
(paths, hex strings, reasons); no claim depends on a payload, so the
constructors here are payload-free. -/

/-- The error kinds of src/error.rs. -/
inductive Error where
  | io | notARepository | alreadyARepository | objectNotFound | refNotFound
  | pathNotFound | invalidOid | invalidRefName | invalidObject | invalidIndex
  | typeMismatch | invalidUtf8 | decompressionFailed | refAlreadyExists
  | cannotDeleteCurrentBranch | emptyCommit | dirtyWorkingTree | configNotFound
  deriving DecidableEq, Repr

/-! ## Object identifiers (src/objects/oid.rs)

An `Oid` wraps the 20 raw bytes (`[u8; 20]`).  Hex strings are byte lists
(Rust `&str` is UTF-8 bytes; all hex characters are ASCII). -/

/-- A Git object ID: the raw SHA-1 bytes. -/
structure Oid where
  bytes : List Nat
  deriving DecidableEq, Repr

/-- `OID_HEX_LEN`. -/
def OID_HEX_LEN : Nat := 40

/-- `hex_digit_to_value` from src/objects/oid.rs. -/
def hexDigitToValue (c : Nat) : Option Nat :=
  if 48 ≤ c ∧ c ≤ 57 then some (c - 48)
  else if 97 ≤ c ∧ c ≤ 102 then some (c - 97 + 10)
  else if 65 ≤ c ∧ c ≤ 70 then some (c - 65 + 10)
  else none

/-- Decode consecutive pairs of hex digits into bytes (the chunk loop of
`Oid::from_hex`). -/
def fromHexPairs : List Nat → Option (List Nat)
  | [] => some []
  | [_] => none
  | h :: l :: rest =>
    match hexDigitToValue h, hexDigitToValue l, fromHexPairs rest with
    | some hv, some lv, some bs => some (((hv <<< 4) ||| lv) :: bs)
    | _, _, _ => none

/-- `Oid::from_hex`: 40 hex characters (case-insensitive) to an `Oid`. -/
def Oid.fromHex (hex : List Nat) : Except Error Oid :=
  if hex.length ≠ OID_HEX_LEN then .error .invalidOid
  else match fromHexPairs hex with
    | some bs => .ok ⟨bs⟩
    | none => .error .invalidOid

/-- `HEX_CHARS[i]` as an ASCII byte. -/
def hexChar (i : Nat) : Nat :=
  [48, 49, 50, 51, 52, 53, 54, 55, 56, 57, 97, 98, 99, 100, 101, 102].getD i 0

/-- `Oid::to_hex`: lowercase hex rendering, two characters per byte. -/
def Oid.toHex (o : Oid) : List Nat :=
  o.bytes.flatMap fun b => [hexChar (b >>> 4), hexChar (b &&& 15)]

/-- `Oid::from_bytes`. -/
def Oid.fromBytes (bs : List Nat) : Oid := ⟨bs⟩

/-! ## Loose-object parsing (src/objects/store.rs)

`LooseObjectStore::read` reads the compressed file at the path derived
from the OID, inflates it and calls `parse_raw_object`.  The zlib layer is
abstracted away: a store state is modelled as a map from `Oid` to the
*decompressed* payload of the file at that OID's path (`none` when the
file is missing, which `read_raw` reports as `ObjectNotFound`).  All
claims about `read` assume decompression succeeded, so nothing is lost.

`parse_raw_object`'s UTF-8 check on the header is not modelled separately:
a header that fails it also fails the type-name or size parse, and every
failure in `parse_raw_object` is the same payload-free
`Error.invalidObject`, so the result is identical. -/

/-- The object type tag (src/objects/store.rs `ObjectType`). -/
inductive ObjectType where
  | blob | tree | commit | tag
  deriving DecidableEq, Repr

/-- `ObjectType::as_str` as bytes. -/
def ObjectType.asStr : ObjectType → List Nat
  | .blob => asciiBytes "blob"
  | .tree => asciiBytes "tree"
  | .commit => asciiBytes "commit"
  | .tag => asciiBytes "tag"

/-- `ObjectType::parse`. -/
def ObjectType.parse (s : List Nat) : Option ObjectType :=
  if s = asciiBytes "blob" then some .blob
  else if s = asciiBytes "tree" then some .tree
  else if s = asciiBytes "commit" then some .commit
  else if s = asciiBytes "tag" then some .tag
  else none

/-- A raw object: type plus body (src/objects/store.rs `RawObject`). -/
structure RawObject where
  objectType : ObjectType
  content : List Nat
  deriving DecidableEq, Repr

/-- Split a byte list on a separator byte, keeping empty segments
(the behaviour of Rust's `str::split(char)`). -/
def splitOnByte (sep : Nat) : List Nat → List (List Nat)
  | [] => [[]]
  | b :: rest =>
    if b = sep then [] :: splitOnByte sep rest
    else
      match splitOnByte sep rest with
      | [] => [[b]]
      | s :: ss => (b :: s) :: ss

/-- Is `b` an ASCII decimal digit? -/
def isDigitByte (b : Nat) : Bool := 48 ≤ b && b ≤ 57

/-- Numeric value of a digit string, most significant first. -/
def digitsVal (l : List Nat) : Nat := l.foldl (fun a b => a * 10 + (b - 48)) 0

/-- Rust `str::parse::<usize>()`: optional leading `+`, one or more ASCII
digits, value below 2^64. -/
def parseUsize (s : List Nat) : Option Nat :=
  let s' := if s.head? = some 43 then s.tail else s
  if s' ≠ [] ∧ s'.all isDigitByte then
    let v := digitsVal s'
    if v < 2 ^ 64 then some v else none
  else none

/-- `LooseObjectStore::parse_raw_object`: split `"<type> <size>\0<body>"`
at the first NUL, parse the header, check the declared size. -/
def parseRawObject (data : List Nat) : Except Error RawObject :=
  match data.findIdx? (· == 0) with
  | none => .error .invalidObject
  | some nullPos =>
    let header := data.take nullPos
    let parts := splitOnByte 32 header
    match parts.head? with
    | none => .error .invalidObject
    | some typeStr =>
      match parts[1]? with
      | none => .error .invalidObject
      | some sizeStr =>
        match ObjectType.parse typeStr with
        | none => .error .invalidObject
        | some objectType =>
          match parseUsize sizeStr with
          | none => .error .invalidObject
          | some size =>
            let content := data.drop (nullPos + 1)
            if content.length ≠ size then .error .invalidObject
            else .ok ⟨objectType, content⟩

/-- A loose-object store state: decompressed payload of the file at each
OID's path, `none` when the file is absent. -/
def StoreState := Oid → Option (List Nat)

/-- `LooseObjectStore::read`: fetch the payload and parse it.  A missing
file is `ObjectNotFound` (src/objects/store.rs `read_raw`). -/
def storeRead (st : StoreState) (oid : Oid) : Except Error RawObject :=
  match st oid with
  | none => .error .objectNotFound
  | some data => parseRawObject data

/-- The canonical decompressed payload `"<type> <size>\0<body>"` that
`LooseObjectStore::write` stores for an object (src/objects/store.rs
lines 264-287). -/
def rawPayload (t : ObjectType) (content : List Nat) : List Nat :=
  t.asStr ++ [32] ++ toDec content.length ++ [0] ++ content

/-! ### Decimal codec lemmas -/

theorem mem_toDecAux {fuel n b : Nat} (h : b ∈ toDecAux fuel n) :
    48 ≤ b ∧ b ≤ 57 := by
  induction fuel generalizing n with
  | zero =>
    simp only [toDecAux, List.mem_singleton] at h
    subst h
    have := Nat.mod_lt n (y := 10) (by omega)
    omega
  | succ fuel ih =>
    simp only [toDecAux] at h
    split at h
    · simp only [List.mem_singleton] at h
      omega
    · rcases List.mem_append.1 h with h' | h'
      · exact ih h'
      · simp only [List.mem_singleton] at h'
        subst h'
        have := Nat.mod_lt n (y := 10) (by omega)
        omega

theorem mem_toDec {n b : Nat} (h : b ∈ toDec n) : 48 ≤ b ∧ b ≤ 57 :=
  mem_toDecAux h

theorem digitsVal_append_single (l : List Nat) (d : Nat) :
    digitsVal (l ++ [d]) = digitsVal l * 10 + (d - 48) := by
  simp [digitsVal, List.foldl_append]

theorem digitsVal_toDecAux {fuel n : Nat} (h : n ≤ fuel) :
    digitsVal (toDecAux fuel n) = n := by
  induction fuel generalizing n with
  | zero =>
    have : n = 0 := by omega
    subst this
    simp [toDecAux, digitsVal]
  | succ fuel ih =>
    simp only [toDecAux]
    split
    · simp [digitsVal]
    · rw [digitsVal_append_single]
      have hdiv : n / 10 ≤ fuel := by
        have : n / 10 < n := Nat.div_lt_self (by omega) (by omega)
        omega
      rw [ih hdiv]
      omega

theorem digitsVal_toDec (n : Nat) : digitsVal (toDec n) = n :=
  digitsVal_toDecAux (Nat.le_refl n)

theorem toDecAux_ne_nil (fuel n : Nat) : toDecAux fuel n ≠ [] := by
  cases fuel with
  | zero => simp [toDecAux]
  | succ fuel =>
    simp only [toDecAux]
    split
    · simp
    · simp

theorem parseUsize_toDec {n : Nat} (h : n < 2 ^ 64) :
    parseUsize (toDec n) = some n := by
  have hne := toDecAux_ne_nil n n
  unfold parseUsize
  rcases hl : toDec n with _ | ⟨b, rest⟩
  · exact absurd hl hne
  · have hb : 48 ≤ b ∧ b ≤ 57 := mem_toDec (hl ▸ List.mem_cons_self b rest)
    have hhead : ¬((b :: rest).head? = some 43) := by
      simp only [List.head?_cons, Option.some.injEq]
      omega
    simp only [if_neg hhead]
    have hall : (b :: rest).all isDigitByte = true := by
      rw [← hl]
      rw [List.all_eq_true]
      intro x hx
      have := mem_toDec hx
      simp [isDigitByte]
      omega
    rw [if_pos ⟨by simp, hall⟩]
    have hval : digitsVal (b :: rest) = n := hl ▸ digitsVal_toDec n
    rw [hval, if_pos h]

/-! ### Byte-splitting lemmas -/

theorem findIdx?_zero_append (l r : List Nat) (hl : ∀ b ∈ l, b ≠ 0) :
    List.findIdx? (· == 0) (l ++ 0 :: r) = some l.length := by
  induction l with
  | nil => simp [List.findIdx?_cons]
  | cons a l ih =>
    have ha : a ≠ 0 := hl a (List.mem_cons_self a l)
    simp only [List.cons_append, List.findIdx?_cons, beq_iff_eq, if_neg ha, List.findIdx?_succ]
    rw [ih (fun b hb => hl b (List.mem_cons_of_mem a hb))]
    simp

theorem splitOnByte_no_sep {sep : Nat} {l : List Nat} (h : ∀ b ∈ l, b ≠ sep) :
    splitOnByte sep l = [l] := by
  induction l with
  | nil => rfl
  | cons b rest ih =>
    have hb : b ≠ sep := h b (List.mem_cons_self b rest)
    simp only [splitOnByte, if_neg hb]
    rw [ih (fun x hx => h x (List.mem_cons_of_mem b hx))]

theorem splitOnByte_append_sep {sep : Nat} (l1 l2 : List Nat)
    (h : ∀ b ∈ l1, b ≠ sep) :
    splitOnByte sep (l1 ++ sep :: l2) = l1 :: splitOnByte sep l2 := by
  induction l1 with
  | nil => simp [splitOnByte]
  | cons b l1 ih =>
    have hb : b ≠ sep := h b (List.mem_cons_self b l1)
    simp only [List.cons_append, splitOnByte, if_neg hb, List.append_eq]
    rw [ih (fun x hx => h x (List.mem_cons_of_mem b hx))]

/-! ### Canonical-payload parsing -/

theorem asStr_no_zero_no_space (t : ObjectType) :
    ∀ b ∈ t.asStr, b ≠ 0 ∧ b ≠ 32 := by
  cases t <;> decide

theorem ObjectType.parse_asStr (t : ObjectType) :
    ObjectType.parse t.asStr = some t := by
  cases t <;> decide

/-- Reading back a canonical payload yields exactly the written object.
`hc` is the Rust `usize` bound on `Vec` lengths. -/
theorem parseRawObject_rawPayload (t : ObjectType) (c : List Nat)
    (hc : c.length < 2 ^ 64) :
    parseRawObject (rawPayload t c) = .ok ⟨t, c⟩ := by
  have hassoc : rawPayload t c = (t.asStr ++ 32 :: toDec c.length) ++ 0 :: c := by
    simp [rawPayload]
  have hhdr : ∀ b ∈ t.asStr ++ 32 :: toDec c.length, b ≠ 0 := by
    intro b hb
    rcases List.mem_append.1 hb with h' | h'
    · exact (asStr_no_zero_no_space t b h').1
    · rcases List.mem_cons.1 h' with h'' | h''
      · omega
      · have := mem_toDec h''
        omega
  have hfind := findIdx?_zero_append (t.asStr ++ 32 :: toDec c.length) c hhdr
  have hsplit : splitOnByte 32 (t.asStr ++ 32 :: toDec c.length) =
      [t.asStr, toDec c.length] := by
    rw [splitOnByte_append_sep _ _ (fun b hb => (asStr_no_zero_no_space t b hb).2)]
    rw [splitOnByte_no_sep (fun b hb => by have := mem_toDec hb; omega)]
  have hdrop : ((t.asStr ++ 32 :: toDec c.length) ++ 0 :: c).drop
      ((t.asStr ++ 32 :: toDec c.length).length + 1) = c := by
    have h0 : (t.asStr ++ 32 :: toDec c.length) ++ 0 :: c =
        ((t.asStr ++ 32 :: toDec c.length) ++ [0]) ++ c := by simp
    rw [h0, List.drop_left' (by simp; omega)]
  unfold parseRawObject
  rw [hassoc]
  simp only [hfind, List.take_left, hsplit, hdrop, List.head?_cons]
  simp only [List.getElem?_cons_succ, List.getElem?_cons_zero]
  rw [ObjectType.parse_asStr, parseUsize_toDec hc]
  simp

/-! ## Claim C1: hash consistency of objects returned by `read` -/

set_option maxRecDepth 100000 in
/-- C1 counterexample: `LooseObjectStore::read` never recomputes the hash,
so in a store state whose file at the all-zero OID's path holds the valid
payload `"blob 0\0"`, `read` succeeds yet the SHA-1 of the returned
object's header and body is the empty-blob hash, not the all-zero OID.
This refutes the claim as stated (quantifying over every store state in
which the file decompresses and parses successfully). -/
theorem read_unverified_hash_counterexample :
    storeRead
        (fun o => if o = Oid.fromBytes (List.replicate 20 0)
          then some (rawPayload .blob []) else none)
        (Oid.fromBytes (List.replicate 20 0)) = .ok ⟨.blob, []⟩ ∧
      Oid.fromBytes (hashObject (ObjectType.asStr .blob) []) ≠
        Oid.fromBytes (List.replicate 20 0) := by
  constructor
  · rfl
  · decide

/-- C1 (amended): for every store state in which each present file holds
the canonical payload `"<type> <size>\0<body>"` written by
`LooseObjectStore::write` for its own OID, every object returned by
`read(oid)` satisfies `sha1("<type> <size>\0" ++ body) == oid`. -/
theorem storeRead_hash_consistent (st : StoreState)
    (hst : ∀ oid data, st oid = some data →
      ∃ t c, c.length < 2 ^ 64 ∧ data = rawPayload t c ∧
        oid = Oid.fromBytes (hashObject t.asStr c))
    (oid : Oid) (obj : RawObject) (hread : storeRead st oid = .ok obj) :
    Oid.fromBytes (hashObject obj.objectType.asStr obj.content) = oid := by
  rcases hdata : st oid with _ | data
  · simp [storeRead, hdata] at hread
  · simp only [storeRead, hdata] at hread
    obtain ⟨t, c, hlen, hpayload, hoid⟩ := hst oid data hdata
    rw [hpayload, parseRawObject_rawPayload t c hlen] at hread
    obtain rfl : RawObject.mk t c = obj := Except.ok.inj hread
    exact hoid.symm

set_option maxRecDepth 100000 in
/-- Witness for C1 (amended): a store holding the empty blob at its
correct OID; `read` succeeds and the returned object re-hashes to
that OID. -/
theorem storeRead_hash_consistent_witness :
    Oid.fromBytes (hashObject (RawObject.mk .blob []).objectType.asStr
        (RawObject.mk .blob []).content) =
      Oid.fromBytes (hashObject (ObjectType.asStr .blob) []) :=
  storeRead_hash_consistent
    (fun o => if o = Oid.fromBytes (hashObject (ObjectType.asStr .blob) [])
      then some (rawPayload .blob []) else none)
    (fun oid data h => by
      have h' : (if oid = Oid.fromBytes (hashObject (ObjectType.asStr .blob) [])
          then some (rawPayload .blob []) else none) = some data := h
      by_cases hcase : oid = Oid.fromBytes (hashObject (ObjectType.asStr .blob) [])
      · rw [if_pos hcase] at h'
        exact ⟨.blob, [], by decide, by cases h'; rfl, hcase⟩
      · rw [if_neg hcase] at h'
        cases h')
    (Oid.fromBytes (hashObject (ObjectType.asStr .blob) []))
    ⟨.blob, []⟩
    (by
      have hbeta : storeRead
          (fun o => if o = Oid.fromBytes (hashObject (ObjectType.asStr .blob) [])
            then some (rawPayload .blob []) else none)
          (Oid.fromBytes (hashObject (ObjectType.asStr .blob) [])) =
          parseRawObject (rawPayload .blob []) := by
        simp [storeRead]
      rw [hbeta]
      exact parseRawObject_rawPayload .blob [] (by decide))

/-! ## Claim C8: concrete hash values of `hash_object` -/

set_option maxRecDepth 100000 in
/-- C8: `hash_object("blob", b"")` is the empty-blob digest
`e69de29bb2d1d6434b8b29ae775ad8c2e48c5391` and
`hash_object("blob", b"hello\n")` is
`ce013625030ba8dba906f756967f9e9ca394464a`. -/
theorem hashObject_known_values :
    hashObject (asciiBytes "blob") [] =
      [0xe6, 0x9d, 0xe2, 0x9b, 0xb2, 0xd1, 0xd6, 0x43, 0x4b, 0x8b,
       0x29, 0xae, 0x77, 0x5a, 0xd8, 0xc2, 0xe4, 0x8c, 0x53, 0x91] ∧
    hashObject (asciiBytes "blob") [104, 101, 108, 108, 111, 10] =
      [0xce, 0x01, 0x36, 0x25, 0x03, 0x0b, 0xa8, 0xdb, 0xa9, 0x06,
       0xf7, 0x56, 0x96, 0x7f, 0x9e, 0x9c, 0xa3, 0x94, 0x46, 0x4a] := by
  constructor <;> decide

/-! ## Reference resolution (src/refs/resolver.rs)

A ref-store state maps a reference name to its parsed value, `none` when
the ref file is missing (`read_ref_file` reports `RefNotFound`).  The
single-line file parse (`ref: ` detection, trimming, hex parse) is
abstracted into the stored `RefValue`; claim C5 only concerns the hop
counting of `resolve_recursive`. -/

/-- A reference value: direct OID or symbolic target. -/
inductive RefValue where
  | direct (oid : Oid)
  | symbolic (target : String)
  deriving DecidableEq, Repr

/-- A resolved reference: the final direct name and its OID. -/
structure ResolvedRef where
  name : String
  oid : Oid
  deriving DecidableEq, Repr

/-- A ref-store state. -/
def RefStore := String → Option RefValue

instance {ε α : Type} [DecidableEq ε] [DecidableEq α] : DecidableEq (Except ε α) :=
  fun x y =>
    match x, y with
    | .error a, .error b =>
      if h : a = b then isTrue (by rw [h]) else isFalse (by intro hc; cases hc; exact h rfl)
    | .error _, .ok _ => isFalse (by intro hc; cases hc)
    | .ok _, .error _ => isFalse (by intro hc; cases hc)
    | .ok a, .ok b =>
      if h : a = b then isTrue (by rw [h]) else isFalse (by intro hc; cases hc; exact h rfl)

/-- The loop body of `RefStore::resolve_recursive`; `remaining` is
`MAX_DEPTH - depth`, so the `depth >= MAX_DEPTH` guard at the top of
the loop is the `0` case. -/
def resolveGo (store : RefStore) : String → Nat → Except Error ResolvedRef
  | _, 0 => .error .invalidRefName
  | name, remaining + 1 =>
    match store name with
    | none => .error .refNotFound
    | some (.direct oid) => .ok ⟨name, oid⟩
    | some (.symbolic target) => resolveGo store target remaining

/-- `RefStore::resolve_recursive` with `MAX_DEPTH = 10`. -/
def resolveRecursive (store : RefStore) (name : String) : Except Error ResolvedRef :=
  resolveGo store name 10

/-- `SymChain store names final` states that each name in `names` is a
symbolic ref pointing at the next name (or at `final` for the last). -/
def SymChain (store : RefStore) : List String → String → Prop
  | [], _ => True
  | n :: rest, final =>
    store n = some (.symbolic (rest.headD final)) ∧ SymChain store rest final

/-! ## Claim C5: hop counting in `resolve_recursive` -/

/-- C5 counterexample: a chain of exactly 10 symbolic refs ending in a
direct ref.  The claim says `resolve_recursive` follows up to 10 hops and
returns the final direct name and OID, but the `depth >= 10` guard fires
before the 11th read, so the code returns `InvalidRefName`. -/
theorem resolveRecursive_ten_hops_counterexample :
    resolveRecursive
        (fun n => List.lookup n
          [("r0", .symbolic "r1"), ("r1", .symbolic "r2"), ("r2", .symbolic "r3"),
           ("r3", .symbolic "r4"), ("r4", .symbolic "r5"), ("r5", .symbolic "r6"),
           ("r6", .symbolic "r7"), ("r7", .symbolic "r8"), ("r8", .symbolic "r9"),
           ("r9", .symbolic "d"), ("d", RefValue.direct (Oid.fromBytes [1]))])
        "r0" = .error .invalidRefName ∧
      resolveRecursive
        (fun n => List.lookup n
          [("r0", .symbolic "r1"), ("r1", .symbolic "r2"), ("r2", .symbolic "r3"),
           ("r3", .symbolic "r4"), ("r4", .symbolic "r5"), ("r5", .symbolic "r6"),
           ("r6", .symbolic "r7"), ("r7", .symbolic "r8"), ("r8", .symbolic "r9"),
           ("r9", .symbolic "d"), ("d", RefValue.direct (Oid.fromBytes [1]))])
        "r0" ≠ .ok ⟨"d", Oid.fromBytes [1]⟩ := by
  constructor
  · rfl
  · decide

/-- Generalised chain-following for `resolveGo`. -/
theorem resolveGo_chain (store : RefStore) (names : List String)
    (final : String) (oid : Oid) (fuel : Nat)
    (hchain : SymChain store names final)
    (hfinal : store final = some (.direct oid))
    (hlen : names.length < fuel) :
    resolveGo store (names.headD final) fuel = .ok ⟨final, oid⟩ := by
  induction names generalizing fuel with
  | nil =>
    cases fuel with
    | zero => omega
    | succ f => simp [resolveGo, hfinal]
  | cons n rest ih =>
    cases fuel with
    | zero => simp at hlen
    | succ f =>
      obtain ⟨hn, hrest⟩ := hchain
      simp only [List.headD_cons, resolveGo, hn]
      exact ih f hrest (by simp at hlen; omega)

/-- Generalised exhaustion for `resolveGo`: if the next `fuel` reads are
all symbolic, the hop guard fires. -/
theorem resolveGo_exhausts (store : RefStore) (names : List String)
    (final : String) (fuel : Nat)
    (hchain : SymChain store names final)
    (hlen : fuel ≤ names.length) :
    resolveGo store (names.headD final) fuel = .error .invalidRefName := by
  induction names generalizing fuel with
  | nil =>
    cases fuel with
    | zero => rfl
    | succ f => simp at hlen
  | cons n rest ih =>
    cases fuel with
    | zero => rfl
    | succ f =>
      obtain ⟨hn, hrest⟩ := hchain
      simp only [List.headD_cons, resolveGo, hn]
      exact ih f hrest (by simp at hlen; omega)

/-- C5 (amended): `resolve_recursive` follows at most 9 symbolic hops.
For every chain of `n` symbolic refs (`0 ≤ n ≤ 9`) ending in a direct
ref it returns the final direct name and OID; for every chain of 10 or
more symbolic hops (in particular every cycle) it returns
`InvalidRefName`. -/
theorem resolveRecursive_hop_behavior (store : RefStore) (names : List String)
    (final : String) (oid : Oid) :
    (SymChain store names final → store final = some (.direct oid) →
      names.length ≤ 9 →
      resolveRecursive store (names.headD final) = .ok ⟨final, oid⟩) ∧
    (SymChain store names final → 10 ≤ names.length →
      resolveRecursive store (names.headD final) = .error .invalidRefName) := by
  constructor
  · intro hchain hfinal hlen
    exact resolveGo_chain store names final oid 10 hchain hfinal (by omega)
  · intro hchain hlen
    exact resolveGo_exhausts store names final 10 hchain hlen

/-- Witness for C5 (amended): a one-hop chain `a → d` resolves to `d`. -/
theorem resolveRecursive_hop_behavior_witness :
    resolveRecursive
        (fun n => List.lookup n
          [("a", .symbolic "d"), ("d", RefValue.direct (Oid.fromBytes [2]))])
        (List.headD ["a"] "d") = .ok ⟨"d", Oid.fromBytes [2]⟩ :=
  (resolveRecursive_hop_behavior
      (fun n => List.lookup n
        [("a", .symbolic "d"), ("d", RefValue.direct (Oid.fromBytes [2]))])
      ["a"] "d" (Oid.fromBytes [2])).1
    ⟨rfl, trivial⟩ rfl (by decide)

/-! ## Date parsing and log options (src/log.rs)

Rust date strings are modelled as `List Char` (`str::split('-')` splits on
the character).  `parse_date` mirrors src/log.rs lines 242-283; Rust `i64`
division truncates toward zero, which is `Int.tdiv`. -/

/-- Split a character list on a separator, keeping empty segments
(Rust `str::split(char)`). -/
def splitOnChar (sep : Char) : List Char → List (List Char)
  | [] => [[]]
  | c :: rest =>
    if c = sep then [] :: splitOnChar sep rest
    else
      match splitOnChar sep rest with
      | [] => [[c]]
      | s :: ss => (c :: s) :: ss

/-- Rust `str::parse::<i64>()`: optional sign, one or more ASCII digits,
value within the `i64` range. -/
def parseI64 (cs : List Char) : Option Int :=
  let signDigits : Int × List Char :=
    match cs with
    | c :: rest =>
      if c = '+' then (1, rest)
      else if c = '-' then (-1, rest)
      else (1, cs)
    | [] => (1, cs)
  let sign := signDigits.1
  let digits := signDigits.2
  if digits ≠ [] ∧ digits.all Char.isDigit then
    let v : Int := Int.ofNat (digits.foldl (fun a c => a * 10 + (c.toNat - 48)) 0)
    let iv := sign * v
    if -(2 ^ 63) ≤ iv ∧ iv ≤ 2 ^ 63 - 1 then some iv else none
  else none

/-- The month-offset table in `parse_date`. -/
def monthOffset (m : Int) : Int :=
  if m = 1 then 0 else if m = 2 then 31 else if m = 3 then 59
  else if m = 4 then 90 else if m = 5 then 120 else if m = 6 then 151
  else if m = 7 then 181 else if m = 8 then 212 else if m = 9 then 243
  else if m = 10 then 273 else if m = 11 then 304 else if m = 12 then 334
  else 0

/-- `parse_date` (src/log.rs lines 242-283): decimal timestamp, or
`YYYY-MM-DD` via the approximate day count, or `0` on any parse failure. -/
def parse_date (s : List Char) : Int :=
  match parseI64 s with
  | some ts => ts
  | none =>
    match splitOnChar '-' s with
    | [ys, ms, ds] =>
      match parseI64 ys, parseI64 ms, parseI64 ds with
      | some year, some month, some day =>
        ((year - 1970) * 365 + Int.tdiv (year - 1969) 4
          + monthOffset month + day - 1) * 86400
      | _, _, _ => 0
    | _ => 0

/-- `LogOptions` (src/log.rs).  The `paths` filter needs tree reading and
is not used by any claim (both log claims run with no path filter), so it
is not modelled; `from` and `until` are Lean keywords, hence `startFrom`
and `untilTs`. -/
structure LogOptions where
  maxCount : Option Nat := none
  since : Option Int := none
  untilTs : Option Int := none
  firstParent : Bool := false
  author : Option String := none
  startFrom : Option Oid := none
  deriving Repr

/-- `LogOptions::new`. -/
def LogOptions.new : LogOptions := {}

/-- `LogOptions::since(date)` (named `sinceDate` because `since` is the
field accessor). -/
def LogOptions.sinceDate (o : LogOptions) (date : List Char) : LogOptions :=
  { o with since := some (parse_date date) }

/-- `LogOptions::until(date)`. -/
def LogOptions.untilDate (o : LogOptions) (date : List Char) : LogOptions :=
  { o with untilTs := some (parse_date date) }

/-! ## Claim C10: junk date strings silently become timestamp 0 -/

/-- C10: for every date string that is neither a decimal integer (per
Rust `i64` parsing) nor three `-`-separated numeric parts, `parse_date`
returns `0` rather than an error, so `LogOptions::since` and
`LogOptions::until` install a `Some(0)` (Unix epoch) filter. -/
theorem parse_date_junk_is_zero (s : List Char)
    (h1 : parseI64 s = none)
    (h2 : ∀ a b c, splitOnChar '-' s = [a, b, c] →
      parseI64 a = none ∨ parseI64 b = none ∨ parseI64 c = none) :
    parse_date s = 0 ∧
      (LogOptions.new.sinceDate s).since = some 0 ∧
      (LogOptions.new.untilDate s).untilTs = some 0 := by
  have hpd : parse_date s = 0 := by
    unfold parse_date
    rw [h1]
    rcases hsp : splitOnChar '-' s with _ | ⟨a, _ | ⟨b, _ | ⟨c, _ | ⟨d, rest⟩⟩⟩⟩
    · rfl
    · rfl
    · rfl
    · rcases h2 a b c hsp with h | h | h <;>
        rcases ha : parseI64 a with _ | ya <;>
        rcases hb : parseI64 b with _ | yb <;>
        rcases hc : parseI64 c with _ | yc <;>
        simp_all
    · rfl
  refine ⟨hpd, ?_, ?_⟩
  · simp [LogOptions.sinceDate, LogOptions.new, hpd]
  · simp [LogOptions.untilDate, LogOptions.new, hpd]

/-- Witness for C10: the junk string `"abc"`. -/
theorem parse_date_junk_is_zero_witness :
    parse_date ['a', 'b', 'c'] = 0 ∧
      (LogOptions.new.sinceDate ['a', 'b', 'c']).since = some 0 ∧
      (LogOptions.new.untilDate ['a', 'b', 'c']).untilTs = some 0 :=
  parse_date_junk_is_zero ['a', 'b', 'c'] (by decide)
    (fun a b c h => by simp [splitOnChar] at h)

/-! ## Prefix search and short-OID resolution
(src/objects/store.rs `find_objects_by_prefix`, src/repository.rs
`resolve_short_oid`)

The objects directory is modelled as the list of OIDs whose loose files
exist, each stored under its canonical two-level hex path, so directory
enumeration plus name recomposition amounts to filtering the stored OIDs
by hex prefix. -/

/-- ASCII lowercase of one byte (`str::to_lowercase` on validated
ASCII hex input). -/
def toLowerByte (b : Nat) : Nat := if 65 ≤ b ∧ b ≤ 90 then b + 32 else b

/-- `char::is_ascii_hexdigit` at the byte level. -/
def isAsciiHexDigit (b : Nat) : Bool :=
  isDigitByte b || (97 ≤ b && b ≤ 102) || (65 ≤ b && b ≤ 70)

/-- `LooseObjectStore::find_objects_by_prefix`: validate the prefix
(length in `[4, 40]`, hex digits only), then filter the stored OIDs by
the lowercased hex prefix. -/
def findObjectsByPrefix (store : List Oid) (pfx : List Nat) : Except Error (List Oid) :=
  if pfx.length < 4 then .error .invalidOid
  else if pfx.length > OID_HEX_LEN then .error .invalidOid
  else if ¬ pfx.all isAsciiHexDigit then .error .invalidOid
  else
    let pfxLower := pfx.map toLowerByte
    .ok (store.filter fun oid => pfxLower.isPrefixOf oid.toHex)

/-- `Repository::resolve_short_oid` (src/repository.rs lines 229-247):
40-byte input parses directly; otherwise the prefix search decides by
match count. -/
def resolveShortOid (store : List Oid) (s : List Nat) : Except Error Oid :=
  if s.length = 40 then Oid.fromHex s
  else
    match findObjectsByPrefix store s with
    | .error e => .error e
    | .ok [] => .error .objectNotFound
    | .ok [oid] => .ok oid
    | .ok _ => .error .invalidOid

/-! ## Claim C7: behaviour of `resolve_short_oid` -/

/-- C7: a 40-character input is parsed directly as an OID; any shorter
input goes through the store's prefix search, whose validation failures
(length < 4 or non-hex characters) surface as `InvalidOid`, and whose
match count otherwise decides: one match returns that OID, zero matches
`ObjectNotFound`, two or more `InvalidOid`. -/
theorem resolveShortOid_spec (store : List Oid) (s : List Nat) :
    (s.length = 40 → resolveShortOid store s = Oid.fromHex s) ∧
    (s.length < 40 → (s.length < 4 ∨ ¬ s.all isAsciiHexDigit) →
      resolveShortOid store s = .error .invalidOid) ∧
    (s.length < 40 → 4 ≤ s.length → s.all isAsciiHexDigit →
      ((store.filter fun oid => (s.map toLowerByte).isPrefixOf oid.toHex) = [] →
        resolveShortOid store s = .error .objectNotFound) ∧
      (∀ m, (store.filter fun oid => (s.map toLowerByte).isPrefixOf oid.toHex) = [m] →
        resolveShortOid store s = .ok m) ∧
      (2 ≤ (store.filter fun oid => (s.map toLowerByte).isPrefixOf oid.toHex).length →
        resolveShortOid store s = .error .invalidOid)) := by
  refine ⟨fun h40 => by simp [resolveShortOid, h40], ?_, ?_⟩
  · intro hlt hbad
    have hne : s.length ≠ 40 := by omega
    have hinv : findObjectsByPrefix store s = .error .invalidOid := by
      unfold findObjectsByPrefix
      by_cases h4 : s.length < 4
      · rw [if_pos h4]
      · rcases hbad with h | h
        · omega
        · rw [if_neg h4, if_neg (show ¬ s.length > OID_HEX_LEN by
            simp only [OID_HEX_LEN]; omega), if_pos h]
    simp [resolveShortOid, hne, hinv]
  · intro hlt hge hhex
    have hne : s.length ≠ 40 := by omega
    have hvalid : findObjectsByPrefix store s =
        .ok (store.filter fun oid => (s.map toLowerByte).isPrefixOf oid.toHex) := by
      unfold findObjectsByPrefix
      rw [if_neg (by omega : ¬ s.length < 4),
        if_neg (show ¬ s.length > OID_HEX_LEN by simp only [OID_HEX_LEN]; omega),
        if_neg (by simp [hhex])]
    refine ⟨?_, ?_, ?_⟩
    · intro hzero
      simp [resolveShortOid, hne, hvalid, hzero]
    · intro m hone
      simp [resolveShortOid, hne, hvalid, hone]
    · intro htwo
      rcases hms : store.filter fun oid => (s.map toLowerByte).isPrefixOf oid.toHex
        with _ | ⟨m1, _ | ⟨m2, rest⟩⟩
      · rw [hms] at htwo; simp at htwo
      · rw [hms] at htwo; simp at htwo
      · simp [resolveShortOid, hne, hvalid, hms]

/-- Witness for C7: with a single stored object, the short prefix of its
hex form resolves to it. -/
theorem resolveShortOid_spec_witness :
    resolveShortOid [Oid.fromBytes (List.replicate 20 0)] [48, 48, 48, 48] =
      .ok (Oid.fromBytes (List.replicate 20 0)) :=
  ((resolveShortOid_spec [Oid.fromBytes (List.replicate 20 0)]
      [48, 48, 48, 48]).2.2 (by decide) (by decide) (by decide)).2.1
    (Oid.fromBytes (List.replicate 20 0)) (by decide)

/-! ## Status classification (src/status.rs)

`compute_status` builds three maps before classifying: the flattened HEAD
tree (`{path → OID}`), the index map (`{path → entry}`, of which only the
entry's OID is consulted), and the working-tree file set.  Those maps are
the inputs of the model; paths are `String`s and the working-tree map
carries the file contents that `file_modified` reads and hashes.  The
union of all paths is iterated in an unspecified `HashSet` order in Rust;
since each path is classified once and the result is sorted by path, the
output is order-independent, and the model iterates a deduplicated key
list. -/

/-- `FileStatus` (src/status.rs). -/
inductive FileStatus where
  | untracked | added | modified | deleted | stagedModified | stagedDeleted
  deriving DecidableEq, Repr

/-- `FileStatus::is_staged`. -/
def FileStatus.is_staged : FileStatus → Bool
  | .added | .stagedModified | .stagedDeleted => true
  | _ => false

/-- `FileStatus::is_unstaged`. -/
def FileStatus.is_unstaged : FileStatus → Bool
  | .modified | .deleted | .untracked => true
  | _ => false

/-- `file_modified` (src/status.rs lines 115-129) over the modelled
working tree: a missing file counts as modified, otherwise the content is
hashed as a blob and compared with the expected OID. -/
def file_modified (workFiles : List (String × List Nat)) (path : String)
    (expectedOid : Oid) : Bool :=
  match workFiles.lookup path with
  | none => true
  | some content => Oid.fromBytes (hashObject (asciiBytes "blob") content) != expectedOid

/-- The per-path classification `match` inside `compute_status`
(src/status.rs lines 182-225). -/
def classifyPath (headFiles indexFiles : List (String × Oid))
    (workFiles : List (String × List Nat)) (path : String) : Option FileStatus :=
  let inHead := headFiles.lookup path
  let inIndex := indexFiles.lookup path
  let inWorking := (workFiles.lookup path).isSome
  match inHead, inIndex, inWorking with
  | none, none, true => some .untracked
  | none, some _, true => some .added
  | none, some _, false => some .deleted
  | some _, some _, false => some .deleted
  | some _, none, false => some .stagedDeleted
  | some _, none, true => some .stagedDeleted
  | some headOid, some indexOid, true =>
    let headModified : Bool := headOid != indexOid
    let workingModified := file_modified workFiles path indexOid
    (match headModified, workingModified with
      | false, false => none
      | false, true => some .modified
      | true, false => some .stagedModified
      | true, true => some .modified)
  | none, none, false => none

/-- `compute_status` (src/status.rs lines 148-236) over the three maps:
classify every path in the union of the key sets, drop the unchanged
ones, sort by path. -/
def compute_status (headFiles indexFiles : List (String × Oid))
    (workFiles : List (String × List Nat)) : List (String × FileStatus) :=
  let allPaths :=
    (headFiles.map Prod.fst ++ indexFiles.map Prod.fst ++ workFiles.map Prod.fst).dedup
  let entries := allPaths.filterMap fun p =>
    (classifyPath headFiles indexFiles workFiles p).map fun st => (p, st)
  entries.mergeSort fun a b => decide (a.1 ≤ b.1)

theorem lookup_some_mem_keys {β : Type} {l : List (String × β)} {p : String} {v : β}
    (h : l.lookup p = some v) : p ∈ l.map Prod.fst := by
  induction l with
  | nil => simp [List.lookup] at h
  | cons e rest ih =>
    rw [List.lookup] at h
    by_cases he : p = e.1
    · simp [he]
    · have : (p == e.1) = false := by simp [he]
      rw [this] at h
      simp only [List.map_cons, List.mem_cons]
      exact Or.inr (ih h)

/-- Membership characterisation of the `compute_status` output. -/
theorem mem_compute_status {headFiles indexFiles : List (String × Oid)}
    {workFiles : List (String × List Nat)} {p : String} {st : FileStatus} :
    (p, st) ∈ compute_status headFiles indexFiles workFiles ↔
      (p ∈ (headFiles.map Prod.fst ++ indexFiles.map Prod.fst ++
            workFiles.map Prod.fst).dedup ∧
        classifyPath headFiles indexFiles workFiles p = some st) := by
  unfold compute_status
  rw [List.mem_mergeSort, List.mem_filterMap]
  constructor
  · rintro ⟨q, hq, hcl⟩
    rcases hcls : classifyPath headFiles indexFiles workFiles q with _ | st'
    · rw [hcls] at hcl; cases hcl
    · rw [hcls] at hcl
      obtain ⟨rfl, rfl⟩ : q = p ∧ st' = st := by
        cases hcl; exact ⟨rfl, rfl⟩
      exact ⟨hq, hcls⟩
  · rintro ⟨hp, hcl⟩
    exact ⟨p, hp, by rw [hcl]; rfl⟩

/-! ## Claim C2: all-three-present classification and output shape -/

/-- C2: for a path present in the HEAD map, the index map and the working
tree, `compute_status` recomputes the working file's blob OID and
classifies by the table: both equal to the index OID → omitted; head
equal, work different → `Modified`; head different, work equal →
`StagedModified`; both different → `Modified` (unstaged precedence);
at most one status is reported per path; and the output is sorted by
path. -/
theorem compute_status_all_three_present
    (headFiles indexFiles : List (String × Oid)) (workFiles : List (String × List Nat))
    (p : String) (headOid indexOid : Oid) (content : List Nat)
    (hh : headFiles.lookup p = some headOid)
    (hi : indexFiles.lookup p = some indexOid)
    (hw : workFiles.lookup p = some content) :
    (headOid = indexOid →
      Oid.fromBytes (hashObject (asciiBytes "blob") content) = indexOid →
      ∀ st, (p, st) ∉ compute_status headFiles indexFiles workFiles) ∧
    (headOid = indexOid →
      Oid.fromBytes (hashObject (asciiBytes "blob") content) ≠ indexOid →
      (p, .modified) ∈ compute_status headFiles indexFiles workFiles) ∧
    (headOid ≠ indexOid →
      Oid.fromBytes (hashObject (asciiBytes "blob") content) = indexOid →
      (p, .stagedModified) ∈ compute_status headFiles indexFiles workFiles) ∧
    (headOid ≠ indexOid →
      Oid.fromBytes (hashObject (asciiBytes "blob") content) ≠ indexOid →
      (p, .modified) ∈ compute_status headFiles indexFiles workFiles) ∧
    (∀ st st', (p, st) ∈ compute_status headFiles indexFiles workFiles →
      (p, st') ∈ compute_status headFiles indexFiles workFiles → st = st') ∧
    List.Pairwise (fun a b => a.1 ≤ b.1)
      (compute_status headFiles indexFiles workFiles) := by
  have hwm : file_modified workFiles p indexOid =
      (Oid.fromBytes (hashObject (asciiBytes "blob") content) != indexOid) := by
    simp [file_modified, hw]
  have hmem : p ∈ (headFiles.map Prod.fst ++ indexFiles.map Prod.fst ++
      workFiles.map Prod.fst).dedup := by
    rw [List.mem_dedup]
    exact List.mem_append.2 (Or.inl (List.mem_append.2 (Or.inl (lookup_some_mem_keys hh))))
  have hclassify : classifyPath headFiles indexFiles workFiles p =
      (match (headOid != indexOid : Bool),
             (Oid.fromBytes (hashObject (asciiBytes "blob") content) != indexOid : Bool) with
        | false, false => none
        | false, true => some .modified
        | true, false => some .stagedModified
        | true, true => some .modified) := by
    simp only [classifyPath, hh, hi, hw, Option.isSome_some, hwm]
  refine ⟨?_, ?_, ?_, ?_, ?_, ?_⟩
  · intro h1 h2 st hmem'
    rw [mem_compute_status] at hmem'
    rw [hclassify, bne_eq_false_iff_eq.2 h1, bne_eq_false_iff_eq.2 h2] at hmem'
    exact Option.noConfusion hmem'.2
  · intro h1 h2
    rw [mem_compute_status]
    refine ⟨hmem, ?_⟩
    rw [hclassify, bne_eq_false_iff_eq.2 h1, bne_iff_ne.2 h2]
  · intro h1 h2
    rw [mem_compute_status]
    refine ⟨hmem, ?_⟩
    rw [hclassify, bne_iff_ne.2 h1, bne_eq_false_iff_eq.2 h2]
  · intro h1 h2
    rw [mem_compute_status]
    refine ⟨hmem, ?_⟩
    rw [hclassify, bne_iff_ne.2 h1, bne_iff_ne.2 h2]
  · intro st st' h h'
    rw [mem_compute_status] at h h'
    have := h.2.symm.trans h'.2
    exact Option.some.inj this
  · unfold compute_status
    have hs := @List.sorted_mergeSort _
      (fun (a b : String × FileStatus) => decide (a.1 ≤ b.1))
      (fun a b c hab hbc => by
        simp only [decide_eq_true_eq] at *
        exact le_trans hab hbc)
      (fun a b => by
        simp only [Bool.or_eq_true, decide_eq_true_eq]
        exact le_total a.1 b.1)
      ((headFiles.map Prod.fst ++ indexFiles.map Prod.fst ++
          workFiles.map Prod.fst).dedup.filterMap fun p =>
        (classifyPath headFiles indexFiles workFiles p).map fun st => (p, st))
    exact hs.imp (by simp)

set_option maxRecDepth 100000 in
/-- Witness for C2: head and index agree on `"a"`, the working file is
empty and hashes differently, so `compute_status` reports `Modified`. -/
theorem compute_status_all_three_present_witness :
    ("a", FileStatus.modified) ∈
      compute_status [("a", Oid.fromBytes (List.replicate 20 0))]
        [("a", Oid.fromBytes (List.replicate 20 0))] [("a", [])] :=
  (compute_status_all_three_present
      [("a", Oid.fromBytes (List.replicate 20 0))]
      [("a", Oid.fromBytes (List.replicate 20 0))] [("a", [])]
      "a" (Oid.fromBytes (List.replicate 20 0)) (Oid.fromBytes (List.replicate 20 0)) []
      rfl rfl rfl).2.1 rfl (by decide)


/-! ## Log iterator (src/log.rs)

The object store composed with `Commit::parse` is modelled as a finite
map from OID to parsed commit; a missing or non-commit object is the
payload-free read error.  `BinaryHeap<PendingCommit>` orders entries by
timestamp alone (`Ord for PendingCommit`); `pop` returns a maximal
element, unspecified among ties, modelled as the leftmost maximum (no
claim depends on the tie order).  The `while let` loop is fuelled: fuel
bounds loop iterations, exhaustion returns `none`, and every theorem
below holds for every fuel value. -/

/-- `Signature` (src/objects/commit.rs). -/
structure Signature where
  name : String
  email : String
  timestamp : Int
  tzOffsetMinutes : Int
  deriving DecidableEq, Repr

/-- A parsed `Commit` (src/objects/commit.rs). -/
structure Commit where
  tree : Oid
  parents : List Oid
  author : Signature
  committer : Signature
  message : List Nat
  deriving DecidableEq, Repr

/-- `PendingCommit` (src/log.rs lines 38-64). -/
structure PendingCommit where
  oid : Oid
  timestamp : Int
  deriving DecidableEq, Repr

/-- `BinaryHeap::pop` for the timestamp ordering: remove a maximal
element (leftmost among ties). -/
def popMax : List PendingCommit → Option (PendingCommit × List PendingCommit)
  | [] => none
  | p :: rest =>
    match popMax rest with
    | none => some (p, [])
    | some (q, rest') =>
      if q.timestamp > p.timestamp then some (q, p :: rest') else some (p, rest)

/-- The mutable state of `LogIterator`. -/
structure LogState where
  pending : List PendingCommit
  visited : List Oid
  count : Nat
  deriving DecidableEq, Repr

/-- The parent-scheduling loop inside `next` (src/log.rs lines 529-560):
push each unvisited parent with its own author timestamp; a read failure
stops the loop, keeping what was already pushed. -/
def pushParents (graph : List (Oid × Commit)) (visited : List Oid) :
    List Oid → List PendingCommit → List PendingCommit × Option Error
  | [], pending => (pending, none)
  | po :: rest, pending =>
    if po ∈ visited then pushParents graph visited rest pending
    else
      match graph.lookup po with
      | some c => pushParents graph visited rest (pending ++ [⟨po, c.author.timestamp⟩])
      | none => (pending, some .objectNotFound)

/-- Substring containment (Rust `str::contains`). -/
def containsSubstring (haystack needle : List Char) : Bool :=
  haystack.tails.any fun t => needle.isPrefixOf t

/-- `passes_filters` (src/log.rs lines 469-500) without the path filter
(not modelled; the claims run with no path filter). -/
def passes_filters (opts : LogOptions) (c : Commit) : Bool :=
  (match opts.since with
    | some since => !(decide (c.author.timestamp < since))
    | none => true) &&
  (match opts.untilTs with
    | some u => !(decide (c.author.timestamp > u))
    | none => true) &&
  (match opts.author with
    | some a => containsSubstring c.author.name.data a.data
    | none => true)

/-- The `while let Some(pending) = self.pending.pop()` loop of
`LogIterator::next` (src/log.rs lines 515-576). -/
def logLoop (graph : List (Oid × Commit)) (opts : LogOptions) :
    Nat → LogState → Option (Except Error Commit × LogState)
  | 0, _ => none
  | fuel + 1, st =>
    match popMax st.pending with
    | none => none
    | some (pnd, rest) =>
      if pnd.oid ∈ st.visited then
        logLoop graph opts fuel { st with pending := rest }
      else
        match graph.lookup pnd.oid with
        | none => some (.error .objectNotFound,
            { pending := rest, visited := st.visited ++ [pnd.oid], count := st.count })
        | some commit =>
          match pushParents graph (st.visited ++ [pnd.oid])
              (if opts.firstParent then commit.parents.take 1 else commit.parents)
              rest with
          | (pending', some e) => some (.error e,
              { pending := pending', visited := st.visited ++ [pnd.oid],
                count := st.count })
          | (pending', none) =>
            if passes_filters opts commit then
              some (.ok commit,
                { pending := pending', visited := st.visited ++ [pnd.oid],
                  count := st.count + 1 })
            else
              logLoop graph opts fuel
                { pending := pending', visited := st.visited ++ [pnd.oid],
                  count := st.count }

/-- `LogIterator::next`: the `max_count` guard, then the loop. -/
def lognext (graph : List (Oid × Commit)) (opts : LogOptions) (fuel : Nat)
    (st : LogState) : Option (Except Error Commit × LogState) :=
  match opts.maxCount with
  | some maxv => if st.count ≥ maxv then none else logLoop graph opts fuel st
  | none => logLoop graph opts fuel st

/-- Drain the iterator: the list of yielded items. -/
def logRun (graph : List (Oid × Commit)) (opts : LogOptions) :
    Nat → LogState → List (Except Error Commit)
  | 0, _ => []
  | fuel + 1, st =>
    match lognext graph opts (fuel + 1) st with
    | none => []
    | some (item, st') => item :: logRun graph opts fuel st'

/-- `LogIterator::with_options` initialisation (src/log.rs lines
337-358): read the start commit for its timestamp and seed the heap. -/
def logInit (graph : List (Oid × Commit)) (startOid : Oid) : Except Error LogState :=
  match graph.lookup startOid with
  | none => .error .objectNotFound
  | some c => .ok ⟨[⟨startOid, c.author.timestamp⟩], [], 0⟩

/-- Author timestamps of the successfully yielded commits. -/
def yieldedTimestamps (items : List (Except Error Commit)) : List Int :=
  items.filterMap fun it =>
    match it with
    | .ok c => some c.author.timestamp
    | .error _ => none

/-- Every entry in the heap is a commit of the graph carrying its own
author timestamp — true of everything `next` and `with_options` push. -/
def PendingConsistent (graph : List (Oid × Commit)) (pending : List PendingCommit) : Prop :=
  ∀ q ∈ pending, ∃ c, graph.lookup q.oid = some c ∧ c.author.timestamp = q.timestamp

/-- The graph is closed under parents and parent timestamps never exceed
the child's (no clock skew). -/
def ParentsBounded (graph : List (Oid × Commit)) : Prop :=
  ∀ oid c, graph.lookup oid = some c → ∀ p ∈ c.parents,
    ∃ pc, graph.lookup p = some pc ∧ pc.author.timestamp ≤ c.author.timestamp

theorem popMax_eq_none {l : List PendingCommit} (h : popMax l = none) : l = [] := by
  cases l with
  | nil => rfl
  | cons a t =>
    rw [popMax] at h
    rcases ht : popMax t with _ | ⟨q, r⟩ <;> rw [ht] at h
    · cases h
    · dsimp only at h
      split at h <;> cases h

theorem popMax_spec {l : List PendingCommit} {p : PendingCommit}
    {rest : List PendingCommit} (h : popMax l = some (p, rest)) :
    p ∈ l ∧ (∀ q ∈ l, q.timestamp ≤ p.timestamp) ∧ (∀ q ∈ rest, q ∈ l) := by
  induction l generalizing p rest with
  | nil => cases h
  | cons a l ih =>
    rw [popMax] at h
    rcases hl : popMax l with _ | ⟨q0, rest0⟩ <;> rw [hl] at h
    · obtain rfl : l = [] := popMax_eq_none hl
      obtain ⟨rfl, rfl⟩ : a = p ∧ [] = rest := by cases h; exact ⟨rfl, rfl⟩
      refine ⟨by simp, ?_, by simp⟩
      intro q hq
      rw [List.mem_singleton] at hq
      subst hq
      exact le_refl _
    · obtain ⟨hq0, hmax0, hrest0⟩ := ih hl
      dsimp only at h
      split at h
      · obtain ⟨rfl, rfl⟩ : q0 = p ∧ a :: rest0 = rest := by cases h; exact ⟨rfl, rfl⟩
        refine ⟨List.mem_cons_of_mem a hq0, ?_, ?_⟩
        · intro q hq
          rcases List.mem_cons.1 hq with rfl | hq
          · omega
          · exact hmax0 q hq
        · intro q hq
          rcases List.mem_cons.1 hq with rfl | hq
          · exact List.mem_cons_self q l
          · exact List.mem_cons_of_mem a (hrest0 q hq)
      · obtain ⟨rfl, rfl⟩ : a = p ∧ l = rest := by cases h; exact ⟨rfl, rfl⟩
        refine ⟨by simp, ?_, fun q hq => List.mem_cons_of_mem _ hq⟩
        intro q hq
        rcases List.mem_cons.1 hq with rfl | hq
        · exact le_refl _
        · have := hmax0 q hq
          omega

theorem pushParents_ok (graph : List (Oid × Commit)) (visited : List Oid)
    (T : Int) :
    ∀ (parents : List Oid) (pending : List PendingCommit),
    (∀ p ∈ parents, ∃ pc, graph.lookup p = some pc ∧ pc.author.timestamp ≤ T) →
    PendingConsistent graph pending →
    (∀ q ∈ pending, q.timestamp ≤ T) →
    ∃ pending', pushParents graph visited parents pending = (pending', none) ∧
      PendingConsistent graph pending' ∧ ∀ q ∈ pending', q.timestamp ≤ T := by
  intro parents
  induction parents with
  | nil =>
    intro pending _ hcons hbound
    exact ⟨pending, rfl, hcons, hbound⟩
  | cons po rest ih =>
    intro pending hpar hcons hbound
    rw [pushParents]
    by_cases hv : po ∈ visited
    · rw [if_pos hv]
      exact ih pending (fun p hp => hpar p (List.mem_cons_of_mem po hp)) hcons hbound
    · rw [if_neg hv]
      obtain ⟨pc, hpc, hpcle⟩ := hpar po (List.mem_cons_self po rest)
      rw [hpc]
      refine ih (pending ++ [⟨po, pc.author.timestamp⟩])
        (fun p hp => hpar p (List.mem_cons_of_mem po hp)) ?_ ?_
      · intro q hq
        rcases List.mem_append.1 hq with hq | hq
        · exact hcons q hq
        · rw [List.mem_singleton] at hq
          subst hq
          exact ⟨pc, hpc, rfl⟩
      · intro q hq
        rcases List.mem_append.1 hq with hq | hq
        · exact hbound q hq
        · rw [List.mem_singleton] at hq
          subst hq
          exact hpcle


/-- Invariant preservation and yield bound for one `next` loop. -/
theorem logLoop_spec (graph : List (Oid × Commit)) (opts : LogOptions)
    (hb : ParentsBounded graph) :
    ∀ (fuel : Nat) (st : LogState) (B : Int) (item : Except Error Commit)
      (st' : LogState),
    PendingConsistent graph st.pending →
    (∀ q ∈ st.pending, q.timestamp ≤ B) →
    logLoop graph opts fuel st = some (item, st') →
    PendingConsistent graph st'.pending ∧
    (∀ q ∈ st'.pending, q.timestamp ≤ B) ∧
    (∀ c, item = .ok c → c.author.timestamp ≤ B ∧
      ∀ q ∈ st'.pending, q.timestamp ≤ c.author.timestamp) := by
  intro fuel
  induction fuel with
  | zero =>
    intro st B item st' _ _ h
    cases h
  | succ fuel ih =>
    intro st B item st' hcons hbound h
    rw [logLoop] at h
    split at h
    · cases h
    · rename_i pnd rest hpop
      obtain ⟨hpmem, hpmax, hrestsub⟩ := popMax_spec hpop
      have hpndB : pnd.timestamp ≤ B := hbound pnd hpmem
      have hrestcons : PendingConsistent graph rest := fun q hq => hcons q (hrestsub q hq)
      have hrestmax : ∀ q ∈ rest, q.timestamp ≤ pnd.timestamp :=
        fun q hq => hpmax q (hrestsub q hq)
      split at h
      · exact ih { st with pending := rest } B item st' hrestcons
          (fun q hq => hbound q (hrestsub q hq)) h
      · rename_i hvis
        obtain ⟨c0, hc0, hc0ts⟩ := hcons pnd hpmem
        split at h
        · rename_i hlook
          rw [hc0] at hlook
          cases hlook
        · rename_i commit hlook
          obtain rfl : c0 = commit := by
            rw [hc0] at hlook
            exact Option.some.inj hlook
          have hparbound : ∀ p ∈ (if opts.firstParent then c0.parents.take 1
              else c0.parents), ∃ pc, graph.lookup p = some pc ∧
                pc.author.timestamp ≤ c0.author.timestamp := by
            intro p hp
            have hp' : p ∈ c0.parents := by
              split at hp
              · exact List.mem_of_mem_take hp
              · exact hp
            exact hb pnd.oid c0 hc0 p hp'
          obtain ⟨pending'', hpush, hcons', hbound'⟩ :=
            pushParents_ok graph (st.visited ++ [pnd.oid]) c0.author.timestamp
              (if opts.firstParent then c0.parents.take 1 else c0.parents) rest
              hparbound hrestcons (fun q hq => hc0ts ▸ hrestmax q hq)
          split at h
          · rename_i pending' e hpush2
            rw [hpush] at hpush2
            simp at hpush2
          · rename_i pending' hpush2
            rw [hpush] at hpush2
            obtain ⟨rfl, -⟩ : pending'' = pending' ∧ True := by
              cases hpush2; exact ⟨rfl, trivial⟩
            split at h
            · obtain ⟨rfl, rfl⟩ : Except.ok c0 = item ∧
                  (⟨pending'', st.visited ++ [pnd.oid], st.count + 1⟩ : LogState) = st' := by
                cases h
                exact ⟨rfl, rfl⟩
              refine ⟨hcons', fun q hq => le_trans (hbound' q hq) (hc0ts ▸ hpndB), ?_⟩
              intro c hc
              obtain rfl : c0 = c := by cases hc; rfl
              exact ⟨hc0ts ▸ hpndB, hbound'⟩
            · have hstep := ih ⟨pending'', st.visited ++ [pnd.oid], st.count⟩
                c0.author.timestamp item st' hcons' hbound' h
              obtain ⟨hc1, hb1, hok1⟩ := hstep
              refine ⟨hc1, fun q hq => le_trans (hb1 q hq) (hc0ts ▸ hpndB), ?_⟩
              intro c hc
              obtain ⟨hcB, hcq⟩ := hok1 c hc
              exact ⟨le_trans hcB (hc0ts ▸ hpndB), hcq⟩

/-- Yield ordering for a full drain, relative to an upper bound on the
heap: the yielded timestamps chain-descend from the bound. -/
theorem logRun_chain (graph : List (Oid × Commit)) (opts : LogOptions)
    (hb : ParentsBounded graph) :
    ∀ (fuel : Nat) (st : LogState) (B : Int),
    PendingConsistent graph st.pending →
    (∀ q ∈ st.pending, q.timestamp ≤ B) →
    List.Chain (fun a b => b ≤ a) B
      (yieldedTimestamps (logRun graph opts fuel st)) := by
  intro fuel
  induction fuel with
  | zero =>
    intro st B _ _
    exact List.Chain.nil
  | succ fuel ih =>
    intro st B hcons hbound
    rw [logRun]
    have hnext : lognext graph opts (fuel + 1) st = logLoop graph opts (fuel + 1) st ∨
        lognext graph opts (fuel + 1) st = none := by
      unfold lognext
      rcases opts.maxCount with _ | maxv
      · exact Or.inl rfl
      · dsimp only
        split
        · exact Or.inr rfl
        · exact Or.inl rfl
    rcases hnext with hnext | hnext <;> rw [hnext]
    · rcases hloop : logLoop graph opts (fuel + 1) st with _ | ⟨item, st1⟩
      · exact List.Chain.nil
      · obtain ⟨hcons', hbound', hok⟩ :=
          logLoop_spec graph opts hb (fuel + 1) st B item st1 hcons hbound hloop
        rcases item with e | c
        · dsimp only [yieldedTimestamps, List.filterMap_cons]
          exact ih st1 B hcons' hbound'
        · obtain ⟨hcB, hcbound⟩ := hok c rfl
          dsimp only [yieldedTimestamps, List.filterMap_cons]
          exact List.Chain.cons hcB (ih st1 c.author.timestamp hcons' hcbound)
    · exact List.Chain.nil

/-! ## Claim C4: log yields non-increasing author timestamps -/

/-- C4 counterexample: commit `A` (timestamp 1000) has parent `B`
(timestamp 2000, clock skew).  Starting from `A` with no filters, the
iterator yields `A` then `B`, an increasing timestamp pair, refuting the
claim as stated for arbitrary finite commit DAGs. -/
theorem log_order_counterexample :
    logInit
        [(Oid.fromBytes [0],
          ⟨Oid.fromBytes [9], [Oid.fromBytes [1]],
            ⟨"a", "a", 1000, 0⟩, ⟨"a", "a", 1000, 0⟩, []⟩),
         (Oid.fromBytes [1],
          ⟨Oid.fromBytes [9], [],
            ⟨"b", "b", 2000, 0⟩, ⟨"b", "b", 2000, 0⟩, []⟩)]
        (Oid.fromBytes [0]) =
      .ok ⟨[⟨Oid.fromBytes [0], 1000⟩], [], 0⟩ ∧
    yieldedTimestamps (logRun
        [(Oid.fromBytes [0],
          ⟨Oid.fromBytes [9], [Oid.fromBytes [1]],
            ⟨"a", "a", 1000, 0⟩, ⟨"a", "a", 1000, 0⟩, []⟩),
         (Oid.fromBytes [1],
          ⟨Oid.fromBytes [9], [],
            ⟨"b", "b", 2000, 0⟩, ⟨"b", "b", 2000, 0⟩, []⟩)]
        LogOptions.new 10 ⟨[⟨Oid.fromBytes [0], 1000⟩], [], 0⟩) = [1000, 2000] ∧
    ¬ List.Chain' (fun a b : Int => b ≤ a) [1000, 2000] := by
  refine ⟨rfl, rfl, ?_⟩
  intro h
  rw [List.chain'_cons] at h
  omega

/-- C4 (amended): in every finite commit graph that is closed under
parents and in which no parent's author timestamp exceeds its child's,
the commits yielded by the log iterator (from any start commit, for any
options and any drain length) have non-increasing author timestamps. -/
theorem log_yields_antitone (graph : List (Oid × Commit)) (opts : LogOptions)
    (startOid : Oid) (st : LogState) (fuel : Nat)
    (hb : ParentsBounded graph)
    (hinit : logInit graph startOid = .ok st) :
    List.Chain' (fun a b => b ≤ a)
      (yieldedTimestamps (logRun graph opts fuel st)) := by
  unfold logInit at hinit
  rcases hstart : graph.lookup startOid with _ | c0 <;> rw [hstart] at hinit
  · cases hinit
  · obtain rfl : (⟨[⟨startOid, c0.author.timestamp⟩], [], 0⟩ : LogState) = st := by
      cases hinit; rfl
    have hchain := logRun_chain graph opts hb fuel
      ⟨[⟨startOid, c0.author.timestamp⟩], [], 0⟩ c0.author.timestamp
      (fun q hq => by
        rw [List.mem_singleton] at hq
        subst hq
        exact ⟨c0, hstart, rfl⟩)
      (fun q hq => by
        rw [List.mem_singleton] at hq
        subst hq
        exact le_refl _)
    rcases hys : yieldedTimestamps (logRun graph opts fuel
        ⟨[⟨startOid, c0.author.timestamp⟩], [], 0⟩) with _ | ⟨y, t⟩
    · exact List.chain'_nil
    · rw [hys] at hchain
      cases hchain with
      | cons _ htail => exact htail

/-- Witness for C4 (amended): a two-commit chain with properly ordered
timestamps (child 2000, parent 1000) yields a non-increasing sequence. -/
theorem log_yields_antitone_witness :
    List.Chain' (fun a b => b ≤ a)
      (yieldedTimestamps (logRun
        [(Oid.fromBytes [0],
          ⟨Oid.fromBytes [9], [Oid.fromBytes [1]],
            ⟨"a", "a", 2000, 0⟩, ⟨"a", "a", 2000, 0⟩, []⟩),
         (Oid.fromBytes [1],
          ⟨Oid.fromBytes [9], [],
            ⟨"b", "b", 1000, 0⟩, ⟨"b", "b", 1000, 0⟩, []⟩)]
        LogOptions.new 10 ⟨[⟨Oid.fromBytes [0], 2000⟩], [], 0⟩)) :=
  log_yields_antitone
    [(Oid.fromBytes [0],
      ⟨Oid.fromBytes [9], [Oid.fromBytes [1]],
        ⟨"a", "a", 2000, 0⟩, ⟨"a", "a", 2000, 0⟩, []⟩),
     (Oid.fromBytes [1],
      ⟨Oid.fromBytes [9], [],
        ⟨"b", "b", 1000, 0⟩, ⟨"b", "b", 1000, 0⟩, []⟩)]
    LogOptions.new (Oid.fromBytes [0]) ⟨[⟨Oid.fromBytes [0], 2000⟩], [], 0⟩ 10
    (by
      intro oid c hc p hp
      by_cases h0 : oid = Oid.fromBytes [0]
      · subst h0
        have hc' : some (⟨Oid.fromBytes [9], [Oid.fromBytes [1]],
            ⟨"a", "a", 2000, 0⟩, ⟨"a", "a", 2000, 0⟩, []⟩ : Commit) = some c := hc
        obtain rfl := Option.some.inj hc'
        rw [show (⟨Oid.fromBytes [9], [Oid.fromBytes [1]],
            ⟨"a", "a", 2000, 0⟩, ⟨"a", "a", 2000, 0⟩, []⟩ : Commit).parents =
          [Oid.fromBytes [1]] from rfl, List.mem_singleton] at hp
        subst hp
        exact ⟨⟨Oid.fromBytes [9], [], ⟨"b", "b", 1000, 0⟩, ⟨"b", "b", 1000, 0⟩, []⟩,
          rfl, by norm_num⟩
      · by_cases h1 : oid = Oid.fromBytes [1]
        · subst h1
          have hc' : some (⟨Oid.fromBytes [9], [],
              ⟨"b", "b", 1000, 0⟩, ⟨"b", "b", 1000, 0⟩, []⟩ : Commit) = some c := hc
          obtain rfl := Option.some.inj hc'
          cases hp
        · have e0 : (oid == Oid.fromBytes [0]) = false := by
            simp [h0]
          have e1 : (oid == Oid.fromBytes [1]) = false := by
            simp [h1]
          rw [List.lookup, e0, List.lookup, e1, List.lookup] at hc
          cases hc)
    rfl

/-! ## Rename detection (src/diff/mod.rs)

`DiffDelta` mirrors the Rust struct; paths are `String`s.  `detect_renames`
is the index-based algorithm of src/diff/mod.rs lines 589-653: collect the
indices of Deleted and Added deltas, greedily pair them by equal OID
(first match, skipping already-paired indices), remove the paired indices
(`remove` in reverse order keeps exactly the unpaired positions, in
order), append the `Renamed` deltas, and re-sort by `path` (the new path
for renames; `sort_by` is stable, as is `mergeSort`).

`detectRenamesSpec` restates the specification's words at the level of
delta values: pair each Deleted, in order, with the first not-yet-paired
Added of equal OID; a paired delta cannot pair again; both originals are
removed, a single Renamed(old→new) replaces them; the final list is
sorted by the new path. -/

/-- `FileMode` (src/objects/tree.rs). -/
inductive FileMode where
  | regular | executable | symlink | directory | submodule
  deriving DecidableEq, Repr

/-- `DiffStatus` (src/diff/mod.rs). -/
inductive DiffStatus where
  | added | deleted | modified | renamed | copied
  deriving DecidableEq, Repr

/-- `DiffDelta` (src/diff/mod.rs lines 66-83). -/
structure DiffDelta where
  status : DiffStatus
  path : String
  old_path : Option String
  old_oid : Option Oid
  new_oid : Option Oid
  old_mode : Option FileMode
  new_mode : Option FileMode
  deriving DecidableEq, Repr

instance : Inhabited Oid := ⟨⟨[]⟩⟩

instance : Inhabited DiffDelta := ⟨⟨.added, "", none, none, none, none, none⟩⟩

/-- `DiffDelta::renamed` (src/diff/mod.rs lines 173-184). -/
def DiffDelta.renamed (oldPath newPath : String) (oid : Oid) (mode : FileMode) : DiffDelta :=
  ⟨.renamed, newPath, some oldPath, some oid, some oid, some mode, some mode⟩

/-- The `Renamed` delta built from a paired (Deleted, Added) couple:
`DiffDelta::renamed(deleted.path, added.path, deleted_oid,
deleted.old_mode.unwrap_or(Regular))`. -/
def renameOf (d a : DiffDelta) : DiffDelta :=
  DiffDelta.renamed d.path a.path (d.old_oid.getD default) (d.old_mode.getD .regular)

/-- One iteration of the outer pairing loop of `detect_renames`. -/
def pairStep (deltas : List DiffDelta) (addedIndices : List Nat)
    (acc : List Nat × List DiffDelta) (delIdx : Nat) : List Nat × List DiffDelta :=
  if delIdx ∈ acc.1 then acc
  else
    match (deltas.getD delIdx default).old_oid with
    | none => acc
    | some deletedOid =>
      match addedIndices.find? (fun addIdx =>
          decide (addIdx ∉ acc.1) &&
          ((deltas.getD addIdx default).new_oid == some deletedOid)) with
      | some addIdx =>
        (acc.1 ++ [delIdx, addIdx],
         acc.2 ++ [renameOf (deltas.getD delIdx default) (deltas.getD addIdx default)])
      | none => acc

/-- `detect_renames` (src/diff/mod.rs lines 589-653). -/
def detect_renames (deltas : List DiffDelta) : List DiffDelta :=
  let deletedIndices := (List.range deltas.length).filter
    fun i => (deltas.getD i default).status == .deleted
  let addedIndices := (List.range deltas.length).filter
    fun i => (deltas.getD i default).status == .added
  let acc := deletedIndices.foldl (pairStep deltas addedIndices) ([], [])
  let kept := (List.range deltas.length).filterMap fun i =>
    if i ∈ acc.1 then none else some (deltas.getD i default)
  (kept ++ acc.2).mergeSort fun a b => decide (a.path ≤ b.path)

/-- Remove the first element with the given OID as `new_oid` from the
available Added deltas, returning it and the rest. -/
def extractFirstMatch (oid : Oid) : List DiffDelta → Option (DiffDelta × List DiffDelta)
  | [] => none
  | a :: rest =>
    if a.new_oid == some oid then some (a, rest)
    else
      match extractFirstMatch oid rest with
      | some (x, l) => some (x, a :: l)
      | none => none

/-- Greedy first-match pairing of Deleted deltas (in order) against the
available Added deltas. -/
def pairGreedy : List DiffDelta → List DiffDelta → List (DiffDelta × DiffDelta)
  | [], _ => []
  | d :: ds, avail =>
    match d.old_oid with
    | none => pairGreedy ds avail
    | some x =>
      match extractFirstMatch x avail with
      | some (a, avail') => (d, a) :: pairGreedy ds avail'
      | none => pairGreedy ds avail

/-- The rename-detection step as the specification words it: pair each
Deleted with the first matching Added (each side pairable once), remove
both originals, add the Renamed deltas, sort by the new path. -/
def detectRenamesSpec (deltas : List DiffDelta) : List DiffDelta :=
  let dels := deltas.filter fun d => d.status == .deleted
  let adds := deltas.filter fun d => d.status == .added
  let pairs := pairGreedy dels adds
  let pairedDels := pairs.map Prod.fst
  let pairedAdds := pairs.map Prod.snd
  let kept := deltas.filter fun d =>
    decide (d ∉ pairedDels) && decide (d ∉ pairedAdds)
  let renames := pairs.map fun pq => renameOf pq.1 pq.2
  (kept ++ renames).mergeSort fun a b => decide (a.path ≤ b.path)

theorem range_map_getD {α : Type} [Inhabited α] (l : List α) :
    (List.range l.length).map (fun i => l.getD i default) = l := by
  induction l with
  | nil => rfl
  | cons a t ih =>
    rw [List.length_cons, List.range_succ_eq_map, List.map_cons, List.map_map]
    simp only [List.getD_cons_zero]
    congr 1

theorem filter_eq_map_filter_range {α : Type} [Inhabited α] (l : List α) (P : α → Bool) :
    l.filter P = ((List.range l.length).filter
      (fun i => P (l.getD i default))).map (fun i => l.getD i default) := by
  induction l with
  | nil => rfl
  | cons a t ih =>
    have hfilt : List.filter ((fun i => P ((a :: t).getD i default)) ∘ Nat.succ)
        (List.range t.length) =
        List.filter (fun i => P (t.getD i default)) (List.range t.length) := by
      apply List.filter_congr
      intro i _
      simp [Function.comp, List.getD_cons_succ]
    have hmap : ∀ X : List Nat,
        X.map ((fun i => (a :: t).getD i default) ∘ Nat.succ) =
          X.map (fun i => t.getD i default) := by
      intro X
      apply List.map_congr_left
      intro i _
      simp [Function.comp, List.getD_cons_succ]
    by_cases hp : P a <;>
      simp only [List.length_cons, List.range_succ_eq_map, List.filter_cons,
        List.getD_cons_zero, hp, if_true, if_false, List.filter_map, List.map_cons,
        List.map_map, Bool.false_eq_true, hfilt, hmap] <;>
      rw [ih]

theorem filterMap_if_eq_map_filter {α β : Type} (l : List α) (tr : List α)
    [DecidableEq α] (f : α → β) :
    l.filterMap (fun i => if i ∈ tr then none else some (f i)) =
      (l.filter fun i => decide (i ∉ tr)).map f := by
  induction l with
  | nil => rfl
  | cons a t ih =>
    by_cases ha : a ∈ tr <;>
      simp [List.filterMap_cons, List.filter_cons, ha, ih]

theorem map_filter_exchange {α β : Type} (l : List α) (p : α → Bool) (q : β → Bool)
    (f : α → β) (h : ∀ x ∈ l, p x = q (f x)) :
    (l.filter p).map f = (l.map f).filter q := by
  induction l with
  | nil => rfl
  | cons a t ih =>
    rw [List.filter_cons, List.map_cons, List.filter_cons,
      ← h a (List.mem_cons_self a t)]
    by_cases hp : p a
    · rw [if_pos hp, if_pos hp, List.map_cons,
        ih (fun x hx => h x (List.mem_cons_of_mem a hx))]
    · rw [if_neg hp, if_neg hp, ih (fun x hx => h x (List.mem_cons_of_mem a hx))]

theorem getD_inj {α : Type} [Inhabited α] {l : List α} (hl : l.Nodup)
    {i j : Nat} (hi : i < l.length) (hj : j < l.length)
    (h : l.getD i default = l.getD j default) : i = j := by
  rw [List.getD_eq_getElem?_getD, List.getElem?_eq_getElem hi] at h
  rw [List.getD_eq_getElem?_getD, List.getElem?_eq_getElem hj] at h
  simp only [Option.getD_some] at h
  exact (List.Nodup.getElem_inj_iff hl).1 h

/-- Correspondence between the inner index loop (`find?` over the added
indices not yet paired) and value-level first-match extraction. -/
theorem extract_find_corr (deltas : List DiffDelta) (X : Oid) :
    ∀ (ais : List Nat) (tr : List Nat), ais.Nodup →
    (ais.find? (fun ai => decide (ai ∉ tr) &&
        ((deltas.getD ai default).new_oid == some X)) = none →
      extractFirstMatch X ((ais.filter fun a => decide (a ∉ tr)).map
        (fun i => deltas.getD i default)) = none) ∧
    (∀ ai, ais.find? (fun ai => decide (ai ∉ tr) &&
        ((deltas.getD ai default).new_oid == some X)) = some ai →
      extractFirstMatch X ((ais.filter fun a => decide (a ∉ tr)).map
        (fun i => deltas.getD i default)) =
        some (deltas.getD ai default,
          ((ais.filter fun a => decide (a ∉ tr) && decide (a ≠ ai)).map
            (fun i => deltas.getD i default)))) := by
  intro ais
  induction ais with
  | nil =>
    intro tr _
    exact ⟨fun _ => rfl, fun ai h => by cases h⟩
  | cons a ais ih =>
    intro tr hnd
    obtain ⟨hna, hnd'⟩ := List.nodup_cons.1 hnd
    obtain ⟨ihn, ihs⟩ := ih tr hnd'
    by_cases htr : a ∈ tr
    · have hda : decide (a ∉ tr) = false := by simp [htr]
      have hfc : ∀ P : Nat → Bool,
          List.find? (fun ai => decide (ai ∉ tr) && P ai) (a :: ais) =
          List.find? (fun ai => decide (ai ∉ tr) && P ai) ais := by
        intro P
        rw [List.find?_cons]
        simp [hda]
      have hflt : (a :: ais).filter (fun y => decide (y ∉ tr)) =
          ais.filter (fun y => decide (y ∉ tr)) := by
        rw [List.filter_cons, hda]
        simp
      constructor
      · intro hfind
        rw [hfc] at hfind
        rw [hflt]
        exact ihn hfind
      · intro ai hfind
        rw [hfc] at hfind
        rw [hflt]
        have hflt2 : (a :: ais).filter (fun y => decide (y ∉ tr) && decide (y ≠ ai)) =
            ais.filter (fun y => decide (y ∉ tr) && decide (y ≠ ai)) := by
          rw [List.filter_cons, hda]
          simp
        rw [hflt2]
        exact ihs ai hfind
    · have hda : decide (a ∉ tr) = true := by simp [htr]
      have hflt : (a :: ais).filter (fun y => decide (y ∉ tr)) =
          a :: ais.filter (fun y => decide (y ∉ tr)) := by
        rw [List.filter_cons, hda]
        simp
      by_cases hbeq : ((deltas.getD a default).new_oid == some X) = true
      · constructor
        · intro hfind
          rw [List.find?_cons] at hfind
          have : (decide (a ∉ tr) && ((deltas.getD a default).new_oid == some X)) =
              true := by rw [hda, hbeq]; rfl
          rw [this] at hfind
          cases hfind
        · intro ai hfind
          rw [List.find?_cons] at hfind
          have hpa : (decide (a ∉ tr) && ((deltas.getD a default).new_oid == some X)) =
              true := by rw [hda, hbeq]; rfl
          rw [hpa] at hfind
          obtain rfl : a = ai := by cases hfind; rfl
          rw [hflt]
          simp only [extractFirstMatch, if_pos hbeq]
          have hrest : (a :: ais).filter
              (fun y => decide (y ∉ tr) && decide (y ≠ a)) =
              ais.filter (fun y => decide (y ∉ tr)) := by
            rw [List.filter_cons]
            have : (decide (a ∉ tr) && decide (a ≠ a)) = false := by simp
            rw [this]
            simp only [Bool.false_eq_true, if_false]
            apply List.filter_congr
            intro y hy
            have : y ≠ a := fun heq => hna (heq ▸ hy)
            simp [this]
          rw [hrest]
      · have hpa : (decide (a ∉ tr) && ((deltas.getD a default).new_oid == some X)) =
            false := by
          rw [hda, Bool.true_and]
          exact Bool.not_eq_true _ ▸ (by simpa using hbeq)
        constructor
        · intro hfind
          rw [List.find?_cons, hpa] at hfind
          rw [hflt]
          simp only [extractFirstMatch, if_neg hbeq]
          rw [ihn hfind]
        · intro ai hfind
          rw [List.find?_cons, hpa] at hfind
          have haimem : ai ∈ ais := List.mem_of_find?_eq_some hfind
          have hanea : a ≠ ai := fun heq => hna (heq ▸ haimem)
          rw [hflt]
          simp only [extractFirstMatch, if_neg hbeq]
          rw [ihs ai hfind]
          have hcons2 : (a :: ais).filter
              (fun y => decide (y ∉ tr) && decide (y ≠ ai)) =
              a :: ais.filter (fun y => decide (y ∉ tr) && decide (y ≠ ai)) := by
            rw [List.filter_cons]
            have : (decide (a ∉ tr) && decide (a ≠ ai)) = true := by
              simp [htr, hanea]
            rw [this]
            simp
          rw [hcons2, List.map_cons]

/-- Correspondence between the index-based pairing loop of
`detect_renames` and the value-level greedy pairing of the
specification. -/
theorem pairLoop_corr (deltas : List DiffDelta) (addedIndices : List Nat)
    (haNodup : addedIndices.Nodup) :
    ∀ (dis : List Nat) (tr : List Nat) (rn : List DiffDelta),
    dis.Nodup →
    (∀ i ∈ dis, i ∉ tr) →
    (∀ i ∈ dis, i ∉ addedIndices) →
    ∃ pairsIdx : List (Nat × Nat),
      dis.foldl (pairStep deltas addedIndices) (tr, rn) =
        (tr ++ pairsIdx.flatMap (fun pq => [pq.1, pq.2]),
         rn ++ pairsIdx.map (fun pq =>
           renameOf (deltas.getD pq.1 default) (deltas.getD pq.2 default))) ∧
      pairGreedy (dis.map (fun i => deltas.getD i default))
          ((addedIndices.filter fun a => decide (a ∉ tr)).map
            (fun i => deltas.getD i default)) =
        pairsIdx.map (fun pq =>
          (deltas.getD pq.1 default, deltas.getD pq.2 default)) ∧
      (∀ pq ∈ pairsIdx, pq.1 ∈ dis ∧ pq.2 ∈ addedIndices ∧ pq.2 ∉ tr) ∧
      (pairsIdx.flatMap (fun pq => [pq.1, pq.2])).Nodup := by
  intro dis
  induction dis with
  | nil =>
    intro tr rn _ _ _
    exact ⟨[], by simp, by simp [pairGreedy], by simp, by simp⟩
  | cons di dis ih =>
    intro tr rn hnd hdtr hdadd
    obtain ⟨hdi, hnd'⟩ := List.nodup_cons.1 hnd
    have hdimem : di ∉ tr := hdtr di (List.mem_cons_self di dis)
    have hdiadd : di ∉ addedIndices := hdadd di (List.mem_cons_self di dis)
    rw [List.foldl_cons]
    rw [List.map_cons]
    rcases hoo : (deltas.getD di default).old_oid with _ | X
    · have hstep2 : pairStep deltas addedIndices (tr, rn) di = (tr, rn) := by
        simp only [pairStep, if_neg hdimem, hoo]
      rw [hstep2]
      obtain ⟨pairsIdx, h1, h2, h3, h4⟩ := ih tr rn hnd'
        (fun i hi => hdtr i (List.mem_cons_of_mem di hi))
        (fun i hi => hdadd i (List.mem_cons_of_mem di hi))
      refine ⟨pairsIdx, h1, ?_, ?_, h4⟩
      · simp only [pairGreedy, hoo]
        exact h2
      · intro pq hpq
        obtain ⟨ha, hb, hc⟩ := h3 pq hpq
        exact ⟨List.mem_cons_of_mem di ha, hb, hc⟩
    · rcases hfind : addedIndices.find? (fun addIdx =>
          decide (addIdx ∉ tr) &&
          ((deltas.getD addIdx default).new_oid == some X)) with _ | ai
      · have hstep2 : pairStep deltas addedIndices (tr, rn) di = (tr, rn) := by
          simp only [pairStep, if_neg hdimem, hoo, hfind]
        rw [hstep2]
        obtain ⟨pairsIdx, h1, h2, h3, h4⟩ := ih tr rn hnd'
          (fun i hi => hdtr i (List.mem_cons_of_mem di hi))
          (fun i hi => hdadd i (List.mem_cons_of_mem di hi))
        refine ⟨pairsIdx, h1, ?_, ?_, h4⟩
        · simp only [pairGreedy, hoo]
          rw [(extract_find_corr deltas X addedIndices tr haNodup).1 hfind]
          exact h2
        · intro pq hpq
          obtain ⟨ha, hb, hc⟩ := h3 pq hpq
          exact ⟨List.mem_cons_of_mem di ha, hb, hc⟩
      · have haimem : ai ∈ addedIndices := List.mem_of_find?_eq_some hfind
        have hpred := List.find?_some hfind
        have haitr : ai ∉ tr := by
          by_contra hc
          simp [hc] at hpred
        have hstep2 : pairStep deltas addedIndices (tr, rn) di =
            (tr ++ [di, ai],
             rn ++ [renameOf (deltas.getD di default) (deltas.getD ai default)]) := by
          simp only [pairStep, if_neg hdimem, hoo, hfind]
        rw [hstep2]
        have hdine : di ≠ ai := fun heq => hdiadd (heq ▸ haimem)
        obtain ⟨pairsIdx, h1, h2, h3, h4⟩ := ih (tr ++ [di, ai])
          (rn ++ [renameOf (deltas.getD di default) (deltas.getD ai default)]) hnd'
          (fun i hi => by
            have hint : i ∉ tr := hdtr i (List.mem_cons_of_mem di hi)
            have hine : i ≠ di := fun heq => hdi (heq ▸ hi)
            have hinai : i ≠ ai := fun heq =>
              hdadd i (List.mem_cons_of_mem di hi) (heq ▸ haimem)
            simp [hint, hine, hinai])
          (fun i hi => hdadd i (List.mem_cons_of_mem di hi))
        have havail : (addedIndices.filter fun a => decide (a ∉ tr ++ [di, ai])).map
            (fun i => deltas.getD i default) =
            (addedIndices.filter fun a => decide (a ∉ tr) && decide (a ≠ ai)).map
              (fun i => deltas.getD i default) := by
          congr 1
          apply List.filter_congr
          intro y hy
          have hyne : y ≠ di := fun heq => hdiadd (heq ▸ hy)
          by_cases hytr : y ∈ tr <;> by_cases hyai : y = ai <;>
            simp [hytr, hyai, hyne]
        refine ⟨(di, ai) :: pairsIdx, ?_, ?_, ?_, ?_⟩
        · rw [h1]
          simp [List.append_assoc]
        · simp only [pairGreedy, hoo]
          rw [(extract_find_corr deltas X addedIndices tr haNodup).2 ai hfind]
          rw [List.map_cons]
          rw [← h2, havail]
        · intro pq hpq
          rcases List.mem_cons.1 hpq with rfl | hpq
          · exact ⟨List.mem_cons_self di dis, haimem, haitr⟩
          · obtain ⟨ha, hb, hc⟩ := h3 pq hpq
            refine ⟨List.mem_cons_of_mem di ha, hb, ?_⟩
            intro hctr
            exact hc (by simp [hctr])
        · rw [List.flatMap_cons]
          have hflat : ∀ j ∈ pairsIdx.flatMap (fun pq => [pq.1, pq.2]),
              j ≠ di ∧ j ≠ ai := by
            intro j hj
            rw [List.mem_flatMap] at hj
            obtain ⟨pq, hpq, hjmem⟩ := hj
            obtain ⟨hfst, hsnd, hsntr⟩ := h3 pq hpq
            rcases List.mem_cons.1 hjmem with rfl | hjmem
            · constructor
              · exact fun heq => hdi (heq ▸ hfst)
              · exact fun heq => hdadd pq.1 (List.mem_cons_of_mem di hfst)
                  (heq ▸ haimem)
            · rw [List.mem_singleton] at hjmem
              subst hjmem
              constructor
              · exact fun heq => hdiadd (heq ▸ hsnd)
              · exact fun heq => hsntr (by simp [heq])
          refine List.Nodup.append ?_ h4 ?_
          · simp [hdine]
          · intro j hj1 hj2
            rcases List.mem_cons.1 hj1 with rfl | hj1
            · exact (hflat j hj2).1 rfl
            · rw [List.mem_singleton] at hj1
              subst hj1
              exact (hflat j hj2).2 rfl

/-- Removing a set of (distinct, in-range) indices and then reading the
remaining elements is the same as filtering out the values at those
indices, provided the list has no duplicates. -/
theorem filter_indices_eq_filter_values {α : Type} [Inhabited α] [DecidableEq α]
    (l : List α) (hl : l.Nodup) :
    ∀ tr : List Nat, tr.Nodup → (∀ i ∈ tr, i < l.length) →
    ((List.range l.length).filter fun i => decide (i ∉ tr)).map
        (fun i => l.getD i default) =
      l.filter fun d => decide (d ∉ tr.map (fun i => l.getD i default)) := by
  intro tr
  induction tr with
  | nil =>
    intro _ _
    rw [List.filter_eq_self.2 (by simp), List.filter_eq_self.2 (by simp),
      range_map_getD]
  | cons j tr ih =>
    intro hnd hvalid
    obtain ⟨hj, hnd'⟩ := List.nodup_cons.1 hnd
    have hjlt : j < l.length := hvalid j (List.mem_cons_self j tr)
    have hsplit : ((List.range l.length).filter fun i => decide (i ∉ j :: tr)) =
        (((List.range l.length).filter fun i => decide (i ∉ tr)).filter
          fun i => decide (i ≠ j)) := by
      rw [List.filter_filter]
      apply List.filter_congr
      intro i _
      by_cases h1 : i = j <;> by_cases h2 : i ∈ tr <;> simp [h1, h2]
    rw [hsplit]
    have hexch : (((List.range l.length).filter fun i => decide (i ∉ tr)).filter
        (fun i => decide (i ≠ j))).map (fun i => l.getD i default) =
        (((List.range l.length).filter fun i => decide (i ∉ tr)).map
          (fun i => l.getD i default)).filter
            (fun d => decide (d ≠ l.getD j default)) := by
      apply map_filter_exchange
      intro i hi
      have hirange : i ∈ List.range l.length := List.mem_of_mem_filter hi
      have hilt : i < l.length := List.mem_range.1 hirange
      rw [decide_eq_decide]
      constructor
      · intro hne heq
        exact hne (getD_inj hl hilt hjlt heq)
      · intro hne heq
        subst heq
        exact hne rfl
    rw [hexch, ih hnd' (fun i hi => hvalid i (List.mem_cons_of_mem j hi))]
    rw [List.filter_filter]
    apply List.filter_congr
    intro d _
    by_cases h1 : d = l.getD j default <;>
      by_cases h2 : d ∈ tr.map (fun i => l.getD i default) <;>
      simp [h1, h2]

set_option maxHeartbeats 1000000 in
/-! ## Claim C6: rename detection equals its specification -/

/-- C6: on every delta list sorted strictly by path (the shape produced
by the tree-diff classification), `detect_renames` performs exactly the
specified transformation: each Deleted delta is paired with the first
available Added delta of equal OID (in path order, neither side pairing
twice), every paired couple is replaced by a single
`Renamed(old → new)`, and the final list is sorted by the new path. -/
theorem detect_renames_eq_spec (deltas : List DiffDelta)
    (hsorted : List.Pairwise (fun a b => a.path < b.path) deltas) :
    detect_renames deltas = detectRenamesSpec deltas := by
  have hnodup : deltas.Nodup :=
    hsorted.imp fun hlt heq => absurd (heq ▸ hlt) (lt_irrefl _)
  have hDnodup : ((List.range deltas.length).filter
      fun i => (deltas.getD i default).status == DiffStatus.deleted).Nodup :=
    (List.nodup_range deltas.length).filter _
  have hAnodup : ((List.range deltas.length).filter
      fun i => (deltas.getD i default).status == DiffStatus.added).Nodup :=
    (List.nodup_range deltas.length).filter _
  have hdisj : ∀ i ∈ (List.range deltas.length).filter
      (fun i => (deltas.getD i default).status == DiffStatus.deleted),
      i ∉ (List.range deltas.length).filter
        (fun i => (deltas.getD i default).status == DiffStatus.added) := by
    intro i hi hia
    have h1 := List.of_mem_filter hi
    have h2 := List.of_mem_filter hia
    simp only [beq_iff_eq] at h1 h2
    rw [h1] at h2
    cases h2
  obtain ⟨pairsIdx, h1, h2, h3, h4⟩ := pairLoop_corr deltas
    ((List.range deltas.length).filter
      fun i => (deltas.getD i default).status == DiffStatus.added) hAnodup
    ((List.range deltas.length).filter
      fun i => (deltas.getD i default).status == DiffStatus.deleted) [] []
    hDnodup (by simp) hdisj
  have hdels : deltas.filter (fun d => d.status == DiffStatus.deleted) =
      ((List.range deltas.length).filter
        (fun i => (deltas.getD i default).status == DiffStatus.deleted)).map
          (fun i => deltas.getD i default) :=
    filter_eq_map_filter_range deltas _
  have hadds : deltas.filter (fun d => d.status == DiffStatus.added) =
      ((List.range deltas.length).filter
        (fun i => (deltas.getD i default).status == DiffStatus.added)).map
          (fun i => deltas.getD i default) :=
    filter_eq_map_filter_range deltas _
  have havail : ((((List.range deltas.length).filter
      fun i => (deltas.getD i default).status == DiffStatus.added)).filter
        (fun a => decide (a ∉ ([] : List Nat)))).map (fun i => deltas.getD i default) =
      deltas.filter (fun d => d.status == DiffStatus.added) := by
    rw [hadds]
    congr 1
    simp
  have hgreedy : pairGreedy (deltas.filter fun d => d.status == DiffStatus.deleted)
      (deltas.filter fun d => d.status == DiffStatus.added) =
      pairsIdx.map (fun pq =>
        (deltas.getD pq.1 default, deltas.getD pq.2 default)) := by
    rw [hdels, ← havail]
    exact h2
  have hvalidflat : ∀ i ∈ pairsIdx.flatMap (fun pq => [pq.1, pq.2]),
      i < deltas.length := by
    intro i hi
    rw [List.mem_flatMap] at hi
    obtain ⟨pq, hpq, hmem⟩ := hi
    obtain ⟨hfst, hsnd, -⟩ := h3 pq hpq
    rcases List.mem_cons.1 hmem with rfl | hmem
    · exact List.mem_range.1 (List.mem_of_mem_filter hfst)
    · rw [List.mem_singleton] at hmem
      subst hmem
      exact List.mem_range.1 (List.mem_of_mem_filter hsnd)
  have hkept : ((List.range deltas.length).filterMap fun i =>
      if i ∈ pairsIdx.flatMap (fun pq => [pq.1, pq.2]) then none
      else some (deltas.getD i default)) =
      deltas.filter fun d =>
        decide (d ∉ (pairGreedy (deltas.filter fun d => d.status == DiffStatus.deleted)
          (deltas.filter fun d => d.status == DiffStatus.added)).map Prod.fst) &&
        decide (d ∉ (pairGreedy (deltas.filter fun d => d.status == DiffStatus.deleted)
          (deltas.filter fun d => d.status == DiffStatus.added)).map Prod.snd) := by
    rw [filterMap_if_eq_map_filter]
    rw [filter_indices_eq_filter_values deltas hnodup _ h4 hvalidflat]
    apply List.filter_congr
    intro d _
    rw [hgreedy, List.map_map, List.map_map]
    have hmemiff : d ∈ (pairsIdx.flatMap (fun pq => [pq.1, pq.2])).map
        (fun i => deltas.getD i default) ↔
        (d ∈ pairsIdx.map (Prod.fst ∘
            (fun pq : Nat × Nat => (deltas.getD pq.1 default, deltas.getD pq.2 default))) ∨
         d ∈ pairsIdx.map (Prod.snd ∘
            (fun pq : Nat × Nat => (deltas.getD pq.1 default, deltas.getD pq.2 default)))) := by
      simp only [List.mem_map, List.mem_flatMap, Function.comp]
      constructor
      · rintro ⟨i, ⟨pq, hpq, hmem⟩, rfl⟩
        rcases List.mem_cons.1 hmem with rfl | hmem
        · exact Or.inl ⟨pq, hpq, rfl⟩
        · rw [List.mem_singleton] at hmem
          subst hmem
          exact Or.inr ⟨pq, hpq, rfl⟩
      · rintro (⟨pq, hpq, rfl⟩ | ⟨pq, hpq, rfl⟩)
        · exact ⟨pq.1, ⟨pq, hpq, by simp⟩, rfl⟩
        · exact ⟨pq.2, ⟨pq, hpq, by simp⟩, rfl⟩
    have hnotiff : (d ∉ (pairsIdx.flatMap (fun pq => [pq.1, pq.2])).map
        (fun i => deltas.getD i default)) ↔
        (d ∉ pairsIdx.map (Prod.fst ∘
            (fun pq : Nat × Nat => (deltas.getD pq.1 default, deltas.getD pq.2 default))) ∧
         d ∉ pairsIdx.map (Prod.snd ∘
            (fun pq : Nat × Nat => (deltas.getD pq.1 default, deltas.getD pq.2 default)))) := by
      rw [hmemiff]
      exact not_or
    rw [Bool.eq_iff_iff]
    simp only [Bool.and_eq_true, decide_eq_true_eq]
    exact hnotiff
  have hrenames : pairsIdx.map (fun pq =>
      renameOf (deltas.getD pq.1 default) (deltas.getD pq.2 default)) =
      (pairGreedy (deltas.filter fun d => d.status == DiffStatus.deleted)
        (deltas.filter fun d => d.status == DiffStatus.added)).map
          (fun pq => renameOf pq.1 pq.2) := by
    rw [hgreedy, List.map_map]
    rfl
  rw [detect_renames, detectRenamesSpec]
  rw [h1]
  simp only [List.nil_append]
  rw [hkept, hrenames]

/-- Witness for C6: a one-pair example — `Deleted "a"` and `Added "b"`
with the same OID become a single rename sorted into place. -/
theorem detect_renames_eq_spec_witness :
    detect_renames
        [⟨.deleted, "a", none, some (Oid.fromBytes [7]), none, some .regular, none⟩,
         ⟨.added, "b", none, none, some (Oid.fromBytes [7]), none, some .regular⟩] =
      detectRenamesSpec
        [⟨.deleted, "a", none, some (Oid.fromBytes [7]), none, some .regular, none⟩,
         ⟨.added, "b", none, none, some (Oid.fromBytes [7]), none, some .regular⟩] :=
  detect_renames_eq_spec
    [⟨.deleted, "a", none, some (Oid.fromBytes [7]), none, some .regular, none⟩,
     ⟨.added, "b", none, none, some (Oid.fromBytes [7]), none, some .regular⟩]
    (by
      constructor
      · intro b hb
        rw [List.mem_singleton] at hb
        subst hb
        rw [String.lt_iff_toList_lt]
        decide
      · simp)

/-! ## The index codec (src/index/mod.rs, writer.rs, reader.rs)

Bytes are `List Nat` entries below 256.  Paths are modelled as their
UTF-8 byte sequences (`PathBuf`/`String` pass through
`path_to_unix_bytes`, which replaces backslashes with forward slashes).
The reader's `Cursor` is modelled consumption-style: each phase takes
the remaining bytes and returns a value plus the leftover bytes.  The
cursor-position arithmetic of `skip_padding` (`offset_from_start =
position - entry_start`) is carried as the explicit `consumed` counter
of bytes consumed since the entry start; the one backwards seek (after
peeking a non-NUL byte) becomes not consuming that byte. -/

/-- An entry of the Git index (src/index/mod.rs `IndexEntry`).  `ctime`
and `mtime` are `u64` seconds, `dev`/`ino`/`uid`/`gid`/`size` are `u32`,
`stage` is `u8`, and `path` is the byte sequence of the path. -/
structure IndexEntry where
  ctime : Nat
  mtime : Nat
  dev : Nat
  ino : Nat
  mode : FileMode
  uid : Nat
  gid : Nat
  size : Nat
  oid : Oid
  path : List Nat
  stage : Nat
  deriving DecidableEq, Repr

/-- The Git index (src/index/mod.rs `Index`): format version and
entries. -/
structure Index where
  version : Nat
  entries : List IndexEntry
  deriving DecidableEq, Repr

/-- The magic signature at the start of an index file: "DIRC". -/
def INDEX_SIGNATURE : List Nat := [68, 73, 82, 67]

/-- Big-endian bytes of a `u16` (`u16::to_be_bytes`). -/
def u16ToBytes (w : Nat) : List Nat := [(w >>> 8) % 256, w % 256]

/-- `u16::from_be_bytes` on two bytes. -/
def u16FromBytes (b0 b1 : Nat) : Nat := b0 <<< 8 ||| b1

/-- `file_mode_to_u32` from src/index/writer.rs. -/
def file_mode_to_u32 : FileMode → Nat
  | .regular => 0o100644
  | .executable => 0o100755
  | .symlink => 0o120000
  | .directory => 0o040000
  | .submodule => 0o160000

/-- `path_to_unix_bytes`: the path's bytes with backslashes replaced by
forward slashes. -/
def path_to_unix_bytes (path : List Nat) : List Nat :=
  path.map fun b => if b = 92 then 47 else b

/-- The bytes of one entry before padding, from `write_entry`
(src/index/writer.rs): ctime (`as u32`), ctime_nsec = 0, mtime
(`as u32`), mtime_nsec = 0, dev, ino, mode, uid, gid, size, the 20 OID
bytes, the 16-bit flags `name_len.min(0xFFF) | (stage as u16) << 12`,
then the name bytes. -/
def write_entry_body (e : IndexEntry) : List Nat :=
  u32ToBytes (e.ctime % 2^32) ++ u32ToBytes 0 ++
  u32ToBytes (e.mtime % 2^32) ++ u32ToBytes 0 ++
  u32ToBytes e.dev ++ u32ToBytes e.ino ++
  u32ToBytes (file_mode_to_u32 e.mode) ++
  u32ToBytes e.uid ++ u32ToBytes e.gid ++ u32ToBytes e.size ++
  e.oid.bytes ++
  u16ToBytes (min (path_to_unix_bytes e.path).length 0x0FFF |||
    ((e.stage % 256) <<< 12) % 2^16) ++
  path_to_unix_bytes e.path

/-- The padding appended after an entry of `entry_size` bytes:
`(8 - entry_size % 8) % 8`, or 8 when that is zero (at least one NUL,
up to an 8-byte boundary). -/
def entry_padding (entry_size : Nat) : Nat :=
  if (8 - entry_size % 8) % 8 = 0 then 8 else (8 - entry_size % 8) % 8

/-- `write_entry`: the entry body followed by its NUL padding. -/
def write_entry (e : IndexEntry) : List Nat :=
  write_entry_body e ++ List.replicate (entry_padding (write_entry_body e).length) 0

/-- `write_header` (src/index/writer.rs): signature, version, entry
count, all big-endian `u32`. -/
def write_header (version entry_count : Nat) : List Nat :=
  INDEX_SIGNATURE ++ u32ToBytes version ++ u32ToBytes entry_count

/-- The checksummed portion of the written index: the header (with
`index.len() as u32` entries) followed by every entry's bytes. -/
def index_body (I : Index) : List Nat :=
  write_header I.version (I.entries.length % 2^32) ++ I.entries.flatMap write_entry

/-- `write` (src/index/writer.rs): the body plus the SHA-1 of the
body. -/
def write (I : Index) : List Nat := index_body I ++ sha1 (index_body I)

/-- `read_exact` of `k` bytes from the remaining input: the bytes and
the leftover, or failure when fewer than `k` bytes remain. -/
def readBytes (k : Nat) (rem : List Nat) : Option (List Nat × List Nat) :=
  if k ≤ rem.length then some (rem.take k, rem.drop k) else none

/-- `read_u32_be` (src/index/reader.rs). -/
def read_u32_be (rem : List Nat) : Option (Nat × List Nat) :=
  match readBytes 4 rem with
  | some (bs, rest) =>
    some (u32FromBytes (bs.getD 0 0) (bs.getD 1 0) (bs.getD 2 0) (bs.getD 3 0), rest)
  | none => none

/-- `read_u16_be` (src/index/reader.rs). -/
def read_u16_be (rem : List Nat) : Option (Nat × List Nat) :=
  match readBytes 2 rem with
  | some (bs, rest) => some (u16FromBytes (bs.getD 0 0) (bs.getD 1 0), rest)
  | none => none

/-- `read_until_nul` (src/index/reader.rs): the bytes before the first
NUL, which is itself consumed; failure at end of data. -/
def read_until_nul : List Nat → Option (List Nat × List Nat)
  | [] => none
  | b :: rest =>
    if b = 0 then some ([], rest)
    else match read_until_nul rest with
      | some (bs, rem) => some (b :: bs, rem)
      | none => none

/-- A UTF-8 continuation byte (`0x80..=0xBF`). -/
def utf8Cont (b : Nat) : Bool := decide (128 ≤ b ∧ b < 192)

/-- UTF-8 validity of a byte sequence, the check performed by
`String::from_utf8`. -/
def validUtf8 : List Nat → Bool
  | [] => true
  | b :: rest =>
    if b < 0x80 then validUtf8 rest
    else if 0xC2 ≤ b ∧ b ≤ 0xDF then
      match rest with
      | c1 :: rest2 => utf8Cont c1 && validUtf8 rest2
      | [] => false
    else if b = 0xE0 then
      match rest with
      | c1 :: c2 :: rest2 =>
        decide (0xA0 ≤ c1 ∧ c1 ≤ 0xBF) && utf8Cont c2 && validUtf8 rest2
      | _ => false
    else if b = 0xED then
      match rest with
      | c1 :: c2 :: rest2 =>
        decide (0x80 ≤ c1 ∧ c1 ≤ 0x9F) && utf8Cont c2 && validUtf8 rest2
      | _ => false
    else if 0xE1 ≤ b ∧ b ≤ 0xEF then
      match rest with
      | c1 :: c2 :: rest2 => utf8Cont c1 && utf8Cont c2 && validUtf8 rest2
      | _ => false
    else if b = 0xF0 then
      match rest with
      | c1 :: c2 :: c3 :: rest2 =>
        decide (0x90 ≤ c1 ∧ c1 ≤ 0xBF) && utf8Cont c2 && utf8Cont c3 && validUtf8 rest2
      | _ => false
    else if 0xF1 ≤ b ∧ b ≤ 0xF3 then
      match rest with
      | c1 :: c2 :: c3 :: rest2 =>
        utf8Cont c1 && utf8Cont c2 && utf8Cont c3 && validUtf8 rest2
      | _ => false
    else if b = 0xF4 then
      match rest with
      | c1 :: c2 :: c3 :: rest2 =>
        decide (0x80 ≤ c1 ∧ c1 ≤ 0x8F) && utf8Cont c2 && utf8Cont c3 && validUtf8 rest2
      | _ => false
    else false

/-- `parse_mode` (src/index/reader.rs): the four exact modes, the
regular-file fallback `(m & 0o170000) == 0o100000`, otherwise
`InvalidIndex`.  `0o040000` (Directory) hits the error arm. -/
def parse_mode (mode : Nat) : Except Error FileMode :=
  if mode = 0o100644 then .ok .regular
  else if mode = 0o100755 then .ok .executable
  else if mode = 0o120000 then .ok .symlink
  else if mode = 0o160000 then .ok .submodule
  else if mode &&& 0o170000 = 0o100000 then .ok .regular
  else .error .invalidIndex

/-- The `skip_padding` loop (src/index/reader.rs).  `consumed` is the
cursor offset from the entry start and `entry_size` its value at the
call; each iteration stops at an 8-byte boundary past `entry_size`,
stops at end of data, pushes back a non-NUL byte and stops, or consumes
one NUL byte.  The fuel always exceeds the remaining length, so the
loop never stops for lack of fuel. -/
def skip_padding_go : Nat → Nat → Nat → List Nat → List Nat
  | 0, _, _, rem => rem
  | fuel+1, consumed, entry_size, rem =>
    if consumed > entry_size ∧ consumed % 8 = 0 then rem
    else match rem with
      | [] => []
      | b :: rest =>
        if b ≠ 0 then b :: rest
        else skip_padding_go fuel (consumed+1) entry_size rest

/-- `skip_padding`: run the loop on the remaining bytes. -/
def skip_padding (consumed entry_size : Nat) (rem : List Nat) : List Nat :=
  skip_padding_go (rem.length + 1) consumed entry_size rem

/-- The tail of `parse_entry` after the flags (and the optional
extended flags) have been read: name length and stage from the flags,
the name (length-prefixed, or NUL-terminated when the 12 length bits
are saturated), the UTF-8 check, and — in the length-prefixed case —
the padding skip.  `consumed` is the number of bytes read before the
name (62, or 64 with extended flags). -/
def parse_entry_tail (consumed ctime mtime dev ino : Nat) (mode : FileMode)
    (uid gid size : Nat) (oid : Oid) (flags : Nat) (rem : List Nat) :
    Except Error (IndexEntry × List Nat) :=
  if flags &&& 0x0FFF = 0x0FFF then
    match read_until_nul rem with
    | none => .error .invalidIndex
    | some (name, rem2) =>
      if validUtf8 name then
        .ok (⟨ctime, mtime, dev, ino, mode, uid, gid, size, oid, name,
          (flags >>> 12) &&& 0x03⟩, rem2)
      else .error .invalidIndex
  else
    match readBytes (flags &&& 0x0FFF) rem with
    | none => .error .invalidIndex
    | some (name, rem2) =>
      if validUtf8 name then
        .ok (⟨ctime, mtime, dev, ino, mode, uid, gid, size, oid, name,
          (flags >>> 12) &&& 0x03⟩,
          skip_padding (consumed + (flags &&& 0x0FFF)) (consumed + (flags &&& 0x0FFF)) rem2)
      else .error .invalidIndex

/-- `parse_entry` (src/index/reader.rs): the 62 fixed bytes (ten
big-endian `u32`s with both nanosecond fields ignored, the 20 OID
bytes, the 16-bit flags), the extended flags when version ≥ 3 and flag
bit 14 is set, then the name and padding. -/
def parse_entry (version : Nat) (rem : List Nat) : Except Error (IndexEntry × List Nat) :=
  match read_u32_be rem with
  | none => .error .invalidIndex
  | some (ctime_sec, r1) =>
  match read_u32_be r1 with
  | none => .error .invalidIndex
  | some (_, r2) =>
  match read_u32_be r2 with
  | none => .error .invalidIndex
  | some (mtime_sec, r3) =>
  match read_u32_be r3 with
  | none => .error .invalidIndex
  | some (_, r4) =>
  match read_u32_be r4 with
  | none => .error .invalidIndex
  | some (dev, r5) =>
  match read_u32_be r5 with
  | none => .error .invalidIndex
  | some (ino, r6) =>
  match read_u32_be r6 with
  | none => .error .invalidIndex
  | some (mode_raw, r7) =>
  match parse_mode mode_raw with
  | .error e => .error e
  | .ok mode =>
  match read_u32_be r7 with
  | none => .error .invalidIndex
  | some (uid, r8) =>
  match read_u32_be r8 with
  | none => .error .invalidIndex
  | some (gid, r9) =>
  match read_u32_be r9 with
  | none => .error .invalidIndex
  | some (size, r10) =>
  match readBytes 20 r10 with
  | none => .error .invalidIndex
  | some (oid_bytes, r11) =>
  match read_u16_be r11 with
  | none => .error .invalidIndex
  | some (flags, r12) =>
  if version ≥ 3 ∧ flags &&& 0x4000 ≠ 0 then
    match read_u16_be r12 with
    | none => .error .invalidIndex
    | some (_, r13) =>
      parse_entry_tail 64 ctime_sec mtime_sec dev ino mode uid gid size
        (Oid.fromBytes oid_bytes) flags r13
  else
    parse_entry_tail 62 ctime_sec mtime_sec dev ino mode uid gid size
      (Oid.fromBytes oid_bytes) flags r12

/-- The entry loop of `parse` (src/index/reader.rs): `entry_count`
consecutive entries. -/
def parse_entries (version : Nat) : Nat → List Nat → Except Error (List IndexEntry × List Nat)
  | 0, rem => .ok ([], rem)
  | n+1, rem =>
    match parse_entry version rem with
    | .error e => .error e
    | .ok (e, rem2) =>
      match parse_entries version n rem2 with
      | .error err => .error err
      | .ok (es, rem3) => .ok (e :: es, rem3)

/-- `parse_header` (src/index/reader.rs): the "DIRC" signature, the
version (must be 2, 3 or 4), and the entry count. -/
def parse_header (data : List Nat) : Except Error (Nat × Nat × List Nat) :=
  match readBytes 4 data with
  | none => .error .invalidIndex
  | some (sig, rem) =>
    if sig ≠ INDEX_SIGNATURE then .error .invalidIndex
    else match read_u32_be rem with
      | none => .error .invalidIndex
      | some (version, rem2) =>
        if ¬ (2 ≤ version ∧ version ≤ 4) then .error .invalidIndex
        else match read_u32_be rem2 with
          | none => .error .invalidIndex
          | some (entry_count, rem3) => .ok (version, entry_count, rem3)

/-- `parse` (src/index/reader.rs), instrumented with the leftover
bytes: header, then `entry_count` entries; whatever follows the last
entry — in particular the 20-byte checksum — is never read. -/
def parse_full (data : List Nat) : Except Error (Index × List Nat) :=
  match parse_header data with
  | .error e => .error e
  | .ok (version, entry_count, rem) =>
    match parse_entries version entry_count rem with
    | .error e => .error e
    | .ok (entries, rem2) => .ok (⟨version, entries⟩, rem2)

/-- `parse` as the source exposes it: the parsed index alone. -/
def parse (data : List Nat) : Except Error Index :=
  match parse_full data with
  | .error e => .error e
  | .ok (I, _) => .ok I

/-- Well-formedness of an entry for the byte codec: each numeric field
fits its wire width, the stage fits the two flag bits, the mode is one
the reader accepts back (`Directory` is not), the OID has its 20 bytes,
and the path is shorter than `0xFFF`, backslash-free and valid
UTF-8. -/
abbrev IndexEntryWf (e : IndexEntry) : Prop :=
  e.ctime < 2^32 ∧ e.mtime < 2^32 ∧ e.dev < 2^32 ∧ e.ino < 2^32 ∧
  e.uid < 2^32 ∧ e.gid < 2^32 ∧ e.size < 2^32 ∧
  e.mode ≠ FileMode.directory ∧ e.stage < 4 ∧
  e.oid.bytes.length = 20 ∧
  e.path.length < 0x0FFF ∧ 92 ∉ e.path ∧ validUtf8 e.path = true

/-- Well-formedness of an index: a supported version, an entry count
that fits a `u32`, and well-formed entries. -/
abbrev IndexWf (I : Index) : Prop :=
  2 ≤ I.version ∧ I.version ≤ 4 ∧ I.entries.length < 2^32 ∧
  ∀ e ∈ I.entries, IndexEntryWf e

/-! ### Byte-level helper lemmas for the index codec -/

/-- Bitwise or of a left-shifted value with a value below the shift
width is addition. -/
lemma shiftLeft_lor_eq_add (a : Nat) {k b : Nat} (hb : b < 2^k) :
    (a <<< k) ||| b = a * 2^k + b := by
  apply Nat.eq_of_testBit_eq
  intro i
  have hmod : (a * 2^k + b) % 2^k = b := by
    rw [Nat.add_comm, Nat.add_mul_mod_self_right]
    exact Nat.mod_eq_of_lt hb
  have hdiv : (a * 2^k + b) >>> k = a := by
    rw [Nat.shiftRight_eq_div_pow, Nat.add_comm,
      Nat.add_mul_div_right _ _ (Nat.pos_pow_of_pos k (by norm_num)),
      Nat.div_eq_of_lt hb, Nat.zero_add]
  rcases Nat.lt_or_ge i k with hik | hik
  · have h1 : b.testBit i = (a * 2^k + b).testBit i := by
      conv_lhs => rw [← hmod]
      rw [Nat.testBit_mod_two_pow]
      simp [hik]
    rw [Nat.testBit_lor, Nat.testBit_shiftLeft, ← h1]
    simp [Nat.not_le.2 hik]
  · have h2 : a.testBit (i - k) = (a * 2^k + b).testBit i := by
      conv_lhs => rw [← hdiv]
      rw [Nat.testBit_shiftRight, Nat.add_sub_cancel' hik]
    have hbi : b.testBit i = false :=
      Nat.testBit_lt_two_pow (lt_of_lt_of_le hb (Nat.pow_le_pow_right (by norm_num) hik))
    rw [Nat.testBit_lor, Nat.testBit_shiftLeft, ← h2, hbi]
    simp [hik]

/-- Reading back the four big-endian bytes of a `u32`. -/
lemma u32FromBytes_u32ToBytes {v : Nat} (hv : v < 2^32) :
    u32FromBytes ((v >>> 24) % 256) ((v >>> 16) % 256) ((v >>> 8) % 256) (v % 256) = v := by
  have h8 : (v >>> 8) % 256 < 256 := Nat.mod_lt _ (by norm_num)
  have h16 : (v >>> 16) % 256 < 256 := Nat.mod_lt _ (by norm_num)
  rw [u32FromBytes, Nat.lor_assoc, Nat.lor_assoc,
    shiftLeft_lor_eq_add _ (show v % 256 < 2^8 from Nat.mod_lt _ (by norm_num)),
    shiftLeft_lor_eq_add _ (show (v >>> 8) % 256 * 2^8 + v % 256 < 2^16 by
      have := Nat.mod_lt v (show 0 < 256 by norm_num)
      omega),
    shiftLeft_lor_eq_add _ (show (v >>> 16) % 256 * 2^16 +
        ((v >>> 8) % 256 * 2^8 + v % 256) < 2^24 by
      have := Nat.mod_lt v (show 0 < 256 by norm_num)
      omega)]
  simp only [Nat.shiftRight_eq_div_pow]
  omega

/-- Reading back the two big-endian bytes of a `u16`. -/
lemma u16FromBytes_u16ToBytes {v : Nat} (hv : v < 2^16) :
    u16FromBytes ((v >>> 8) % 256) (v % 256) = v := by
  rw [u16FromBytes,
    shiftLeft_lor_eq_add _ (show v % 256 < 2^8 from Nat.mod_lt _ (by norm_num))]
  simp only [Nat.shiftRight_eq_div_pow]
  omega

/-- `readBytes` at the exact length of a prefix. -/
lemma readBytes_exact (bs rest : List Nat) :
    readBytes bs.length (bs ++ rest) = some (bs, rest) := by
  rw [readBytes, if_pos (by simp), List.take_left, List.drop_left]

/-- `read_u32_be` over the bytes written for a value below `2^32`. -/
lemma read_u32_be_append {v : Nat} (hv : v < 2^32) (rest : List Nat) :
    read_u32_be (u32ToBytes v ++ rest) = some (v, rest) := by
  have h : readBytes 4 (u32ToBytes v ++ rest) = some (u32ToBytes v, rest) := by
    have h4 := readBytes_exact (u32ToBytes v) rest
    rwa [show (u32ToBytes v).length = 4 from rfl] at h4
  rw [read_u32_be, h]
  simp only [u32ToBytes, List.getD_cons_zero, List.getD_cons_succ]
  rw [u32FromBytes_u32ToBytes hv]

/-- `read_u16_be` over the bytes written for a value below `2^16`. -/
lemma read_u16_be_append {v : Nat} (hv : v < 2^16) (rest : List Nat) :
    read_u16_be (u16ToBytes v ++ rest) = some (v, rest) := by
  have h : readBytes 2 (u16ToBytes v ++ rest) = some (u16ToBytes v, rest) := by
    have h2 := readBytes_exact (u16ToBytes v) rest
    rwa [show (u16ToBytes v).length = 2 from rfl] at h2
  rw [read_u16_be, h]
  simp only [u16ToBytes, List.getD_cons_zero, List.getD_cons_succ]
  rw [u16FromBytes_u16ToBytes hv]

/-- The padding is 1..8 bytes and completes the entry to an 8-byte
boundary. -/
lemma entry_padding_spec (n : Nat) :
    0 < entry_padding n ∧ entry_padding n ≤ 8 ∧ (n + entry_padding n) % 8 = 0 := by
  rw [entry_padding]
  split <;> omega

/-- The padding loop consumes a run of `p` NUL bytes ending at the
8-byte boundary just past `entry_size` and stops exactly there. -/
lemma skip_padding_go_zeros (es : Nat) : ∀ (pr : Nat) (p fuel : Nat) (rest : List Nat),
    pr ≤ p → 0 < p → p ≤ 8 → (es + p) % 8 = 0 → pr + 1 ≤ fuel →
    skip_padding_go fuel (es + (p - pr)) es (List.replicate pr 0 ++ rest) = rest := by
  intro pr
  induction pr with
  | zero =>
    intro p fuel rest hprp hp hp8 hmod hfuel
    obtain ⟨f, rfl⟩ : ∃ f, fuel = f + 1 := ⟨fuel - 1, by omega⟩
    simp only [skip_padding_go]
    rw [if_pos (by omega)]
    simp
  | succ pr ih =>
    intro p fuel rest hprp hp hp8 hmod hfuel
    obtain ⟨f, rfl⟩ : ∃ f, fuel = f + 1 := ⟨fuel - 1, by omega⟩
    simp only [skip_padding_go]
    rw [if_neg (by omega), List.replicate_succ, List.cons_append]
    show (if (0:Nat) ≠ 0 then 0 :: (List.replicate pr 0 ++ rest)
      else skip_padding_go f (es + (p - (pr + 1)) + 1) es (List.replicate pr 0 ++ rest)) = rest
    rw [if_neg (by simp)]
    rw [show es + (p - (pr + 1)) + 1 = es + (p - pr) by omega]
    exact ih p f rest (by omega) hp hp8 hmod (by omega)

/-- `skip_padding` on a written entry's padding returns exactly what
follows the padding. -/
lemma skip_padding_write {es p : Nat} (rest : List Nat) (hp : 0 < p) (hp8 : p ≤ 8)
    (hmod : (es + p) % 8 = 0) :
    skip_padding es es (List.replicate p 0 ++ rest) = rest := by
  rw [skip_padding]
  have h := skip_padding_go_zeros es p p ((List.replicate p 0 ++ rest).length + 1) rest
    (le_refl p) hp hp8 hmod (by simp)
  rwa [Nat.sub_self, Nat.add_zero] at h

/-- The written flags word decoded: for a short path and a small stage
it is `stage * 2^12 + name_len`. -/
lemma flags_val_eq {L s : Nat} (hL : L < 0x0FFF) (hs : s < 4) :
    min L 0x0FFF ||| ((s % 256) <<< 12) % 2^16 = s * 2^12 + L := by
  rw [min_eq_left (Nat.le_of_lt hL), Nat.mod_eq_of_lt (show s < 256 by omega),
    Nat.mod_eq_of_lt (show s <<< 12 < 2^16 by rw [Nat.shiftLeft_eq]; omega),
    Nat.lor_comm, shiftLeft_lor_eq_add _ (show L < 2^12 by omega)]

/-- The low 12 flag bits recover the name length. -/
lemma flags_and_low {L s : Nat} (hL : L < 2^12) :
    (s * 2^12 + L) &&& 0x0FFF = L := by
  rw [show (0x0FFF : Nat) = 2^12 - 1 by norm_num, Nat.and_pow_two_sub_one_eq_mod,
    Nat.add_comm, Nat.add_mul_mod_self_right]
  exact Nat.mod_eq_of_lt hL

/-- Flag bits 12–13 recover the stage. -/
lemma flags_shift_stage {L s : Nat} (hL : L < 2^12) (hs : s < 4) :
    ((s * 2^12 + L) >>> 12) &&& 0x03 = s := by
  rw [Nat.shiftRight_eq_div_pow, show (s * 2^12 + L) / 2^12 = s by omega,
    show (0x03 : Nat) = 2^2 - 1 by norm_num, Nat.and_pow_two_sub_one_eq_mod]
  exact Nat.mod_eq_of_lt (by omega)

/-- A flags word written with stage below 4 never has the extended
bit 14. -/
lemma flags_and_ext {L s : Nat} (hL : L < 2^12) (hs : s < 4) :
    (s * 2^12 + L) &&& 0x4000 = 0 := by
  rw [show (0x4000 : Nat) = 2^14 by norm_num, Nat.and_two_pow,
    Nat.testBit_lt_two_pow (show s * 2^12 + L < 2^14 by omega)]
  rfl

/-- A backslash-free path is unchanged by `path_to_unix_bytes`. -/
lemma path_to_unix_bytes_eq {p : List Nat} (hp : 92 ∉ p) : path_to_unix_bytes p = p := by
  rw [path_to_unix_bytes]
  conv_rhs => rw [← List.map_id p]
  apply List.map_congr_left
  intro b hb
  rw [if_neg, id]
  intro h
  exact hp (h ▸ hb)

/-- The length of an entry body: 62 fixed bytes plus the name. -/
lemma write_entry_body_length {e : IndexEntry} (hoid : e.oid.bytes.length = 20) :
    (write_entry_body e).length = 62 + e.path.length := by
  simp [write_entry_body, u32ToBytes, u16ToBytes, path_to_unix_bytes, hoid]
  omega

/-- `parse_mode` inverts `file_mode_to_u32` on every mode but
`Directory`. -/
lemma parse_mode_file_mode {m : FileMode} (hm : m ≠ FileMode.directory) :
    parse_mode (file_mode_to_u32 m) = .ok m := by
  cases m
  · rfl
  · rfl
  · rfl
  · exact absurd rfl hm
  · rfl

/-- `parse_entry` inverts `write_entry` on a well-formed entry and
leaves the following bytes untouched. -/
lemma parse_entry_write_entry (version : Nat) (e : IndexEntry) (he : IndexEntryWf e)
    (rest : List Nat) :
    parse_entry version (write_entry e ++ rest) = .ok (e, rest) := by
  obtain ⟨hct, hmt, hdev, hino, huid, hgid, hsz, hmode, hstage, hoid, hplen, hpbs, hputf⟩ := he
  have hpu : path_to_unix_bytes e.path = e.path := path_to_unix_bytes_eq hpbs
  have hbl : (write_entry_body e).length = 62 + e.path.length := write_entry_body_length hoid
  have hplen2 : e.path.length < 2^12 := by omega
  have hflags : min (path_to_unix_bytes e.path).length 0x0FFF |||
      ((e.stage % 256) <<< 12) % 2^16 = e.stage * 2^12 + e.path.length := by
    rw [hpu]
    exact flags_val_eq hplen hstage
  have hflt : e.stage * 2^12 + e.path.length < 2^16 := by omega
  have hro : ∀ r : List Nat, readBytes 20 (e.oid.bytes ++ r) = some (e.oid.bytes, r) := by
    intro r
    have h := readBytes_exact e.oid.bytes r
    rwa [hoid] at h
  have hrp : ∀ r : List Nat, readBytes e.path.length (e.path ++ r) = some (e.path, r) :=
    fun r => readBytes_exact e.path r
  have hmlt : file_mode_to_u32 e.mode < 2^32 := by
    cases e.mode <;> norm_num [file_mode_to_u32]
  have hskip : ∀ r : List Nat,
      skip_padding (62 + e.path.length) (62 + e.path.length)
        (List.replicate (entry_padding (62 + e.path.length)) 0 ++ r) = r := by
    intro r
    obtain ⟨h1, h2, h3⟩ := entry_padding_spec (62 + e.path.length)
    exact skip_padding_write r h1 h2 h3
  rw [write_entry, hbl, write_entry_body, hflags, hpu]
  simp only [List.append_assoc]
  rw [parse_entry]
  simp only [read_u32_be_append hct, read_u32_be_append hmt, read_u32_be_append hdev,
    read_u32_be_append hino, read_u32_be_append huid, read_u32_be_append hgid,
    read_u32_be_append hsz, read_u32_be_append (show (0:Nat) < 2^32 by norm_num),
    read_u32_be_append hmlt, parse_mode_file_mode hmode, hro,
    read_u16_be_append hflt, Nat.mod_eq_of_lt hct, Nat.mod_eq_of_lt hmt]
  rw [if_neg (by rw [flags_and_ext hplen2 hstage]; simp)]
  rw [parse_entry_tail]
  simp only [flags_and_low hplen2, flags_shift_stage hplen2 hstage]
  rw [if_neg (by omega)]
  simp only [hrp, hputf, eq_self_iff_true, if_true, hskip, Oid.fromBytes]

/-- `parse_entries` inverts the writer's entry loop. -/
lemma parse_entries_write (version : Nat) : ∀ (entries : List IndexEntry),
    (∀ e ∈ entries, IndexEntryWf e) → ∀ rest : List Nat,
    parse_entries version entries.length (entries.flatMap write_entry ++ rest) =
      .ok (entries, rest) := by
  intro entries
  induction entries with
  | nil =>
    intro _ rest
    simp [parse_entries]
  | cons e es ih =>
    intro hwf rest
    simp only [List.flatMap_cons, List.length_cons, List.append_assoc, parse_entries,
      parse_entry_write_entry version e (hwf e (List.mem_cons_self e es)),
      ih (fun x hx => hwf x (List.mem_cons_of_mem e hx))]

/-- `parse_header` inverts `write_header` for a supported version and a
count that fits a `u32`. -/
lemma parse_header_write {version count : Nat} (hv2 : 2 ≤ version) (hv4 : version ≤ 4)
    (hc : count < 2^32) (rest : List Nat) :
    parse_header (write_header version (count % 2^32) ++ rest) = .ok (version, count, rest) := by
  rw [write_header, Nat.mod_eq_of_lt hc]
  simp only [List.append_assoc]
  rw [parse_header]
  have hsig : readBytes 4 (INDEX_SIGNATURE ++ (u32ToBytes version ++ (u32ToBytes count ++ rest)))
      = some (INDEX_SIGNATURE, u32ToBytes version ++ (u32ToBytes count ++ rest)) := by
    have h := readBytes_exact INDEX_SIGNATURE (u32ToBytes version ++ (u32ToBytes count ++ rest))
    rwa [show INDEX_SIGNATURE.length = 4 from rfl] at h
  simp only [hsig, read_u32_be_append (show version < 2^32 by omega), read_u32_be_append hc]
  rw [if_neg (by simp), if_neg (by omega)]

/-- `process_block` always yields the five words `H0..H4`. -/
lemma processBlock_length (h b : List Nat) : (processBlock h b).length = 5 := rfl

/-- Length of rendering words as big-endian bytes. -/
lemma flatMap_u32ToBytes_length : ∀ l : List Nat, (l.flatMap u32ToBytes).length = 4 * l.length := by
  intro l
  induction l with
  | nil => rfl
  | cons x xs ih => simp [u32ToBytes, ih]; omega

/-- A SHA-1 digest has 20 bytes. -/
lemma sha1_length (data : List Nat) : (sha1 data).length = 20 := by
  simp only [sha1, sha1Final]
  split
  · rw [flatMap_u32ToBytes_length, processBlock_length]
  · rw [flatMap_u32ToBytes_length, processBlock_length]

/-- A sample well-formed index used to instantiate the round-trip. -/
def sampleIndex : Index :=
  ⟨2, [⟨1700000000, 1700000001, 100, 12345, FileMode.regular, 1000, 1000, 42,
    Oid.fromBytes (List.replicate 20 7), [97], 2⟩]⟩

set_option maxRecDepth 1000000 in
/-- C3 counterexample: an index holding a `Directory`-mode entry.  The
writer emits mode `0o040000`, which `parse_mode` rejects, so parsing
the written bytes returns `InvalidIndex` instead of the index. -/
theorem index_roundtrip_counterexample :
    parse (write ⟨2, [⟨0, 0, 0, 0, FileMode.directory, 0, 0, 0,
      Oid.fromBytes (List.replicate 20 0), [97], 0⟩]⟩) = .error .invalidIndex := by
  decide

/-- C3 (amended): for every index, the last 20 written bytes are the
SHA-1 of all preceding bytes (the writer's final step, needing no
well-formedness); and whenever the index is well-formed — supported
version, `u32` entry count, fields within their wire widths, stage
below 4, a non-`Directory` mode, 20 OID bytes, and a short
backslash-free valid UTF-8 path per entry — parsing the written bytes
returns the index itself. -/
theorem index_write_parse_roundtrip (I : Index) :
    (IndexWf I → parse (write I) = .ok I) ∧
    (write I).drop ((write I).length - 20) =
      sha1 ((write I).take ((write I).length - 20)) := by
  constructor
  · intro h
    obtain ⟨hv2, hv4, hcnt, hwf⟩ := h
    rw [write, index_body, parse, parse_full]
    simp only [List.append_assoc, parse_header_write hv2 hv4 hcnt,
      parse_entries_write I.version I.entries hwf]
  · rw [write, List.length_append, sha1_length, Nat.add_sub_cancel,
      List.drop_left, List.take_left]

set_option maxRecDepth 1000000 in
/-- Witness for C3: the sample index round-trips and carries its
checksum. -/
theorem index_write_parse_roundtrip_witness :
    parse (write sampleIndex) = .ok sampleIndex ∧
    (write sampleIndex).drop ((write sampleIndex).length - 20) =
      sha1 ((write sampleIndex).take ((write sampleIndex).length - 20)) :=
  ⟨(index_write_parse_roundtrip sampleIndex).1 (by decide),
   (index_write_parse_roundtrip sampleIndex).2⟩

/-! ### Length accounting for the reader (claim C9) -/

/-- Lengths through `readBytes`. -/
lemma readBytes_length {k : Nat} {rem x r : List Nat}
    (h : readBytes k rem = some (x, r)) : x.length = k ∧ r.length + k = rem.length := by
  rw [readBytes] at h
  split at h
  · rename_i hk
    cases h
    refine ⟨by rw [List.length_take]; omega, by rw [List.length_drop]; omega⟩
  · cases h

/-- Lengths through `read_u32_be`. -/
lemma read_u32_be_length {rem : List Nat} {v : Nat} {r : List Nat}
    (h : read_u32_be rem = some (v, r)) : r.length + 4 = rem.length := by
  rw [read_u32_be] at h
  split at h
  · rename_i bs rest heq
    cases h
    exact (readBytes_length heq).2
  · cases h

/-- Lengths through `read_u16_be`. -/
lemma read_u16_be_length {rem : List Nat} {v : Nat} {r : List Nat}
    (h : read_u16_be rem = some (v, r)) : r.length + 2 = rem.length := by
  rw [read_u16_be] at h
  split at h
  · rename_i bs rest heq
    cases h
    exact (readBytes_length heq).2
  · cases h

/-- `read_until_nul` consumes at least the NUL byte. -/
lemma read_until_nul_length : ∀ {rem name r : List Nat},
    read_until_nul rem = some (name, r) → r.length < rem.length := by
  intro rem
  induction rem with
  | nil => intro name r h; cases h
  | cons b rest ih =>
    intro name r h
    rw [read_until_nul] at h
    split at h
    · cases h
      simp
    · split at h
      · rename_i bs rem2 heq
        cases h
        exact lt_trans (ih heq) (by simp)
      · cases h

/-- The padding loop never lengthens the leftover. -/
lemma skip_padding_go_le : ∀ (fuel consumed es : Nat) (rem : List Nat),
    (skip_padding_go fuel consumed es rem).length ≤ rem.length := by
  intro fuel
  induction fuel with
  | zero => intro _ _ rem; simp [skip_padding_go]
  | succ f ih =>
    intro consumed es rem
    simp only [skip_padding_go]
    split
    · exact le_refl _
    · split
      · simp
      · rename_i b rest
        split
        · exact le_refl _
        · exact le_trans (ih _ _ rest) (by simp)

/-- Lengths through the entry tail. -/
lemma parse_entry_tail_length {consumed ctime mtime dev ino : Nat} {mode : FileMode}
    {uid gid size : Nat} {oid : Oid} {flags : Nat} {rem : List Nat}
    {e : IndexEntry} {r : List Nat}
    (h : parse_entry_tail consumed ctime mtime dev ino mode uid gid size oid flags rem
      = .ok (e, r)) : r.length ≤ rem.length := by
  rw [parse_entry_tail] at h
  split at h
  · split at h
    · cases h
    · rename_i name rem2 heq
      split at h
      · cases h
        exact le_of_lt (read_until_nul_length heq)
      · cases h
  · split at h
    · cases h
    · rename_i name rem2 heq
      split at h
      · cases h
        refine le_trans (skip_padding_go_le _ _ _ _) ?_
        have := (readBytes_length heq).2
        omega
      · cases h

/-- A successful entry parse consumes at least the 62 fixed bytes. -/
lemma parse_entry_length {version : Nat} {rem : List Nat} {e : IndexEntry} {r : List Nat}
    (h : parse_entry version rem = .ok (e, r)) : r.length + 62 ≤ rem.length := by
  rw [parse_entry] at h
  split at h
  · cases h
  rename_i ctime r1 heq1
  split at h
  · cases h
  rename_i x2 r2 heq2
  split at h
  · cases h
  rename_i mtime r3 heq3
  split at h
  · cases h
  rename_i x4 r4 heq4
  split at h
  · cases h
  rename_i dev r5 heq5
  split at h
  · cases h
  rename_i ino r6 heq6
  split at h
  · cases h
  rename_i mode_raw r7 heq7
  split at h
  · cases h
  rename_i mode heqm
  split at h
  · cases h
  rename_i uid r8 heq8
  split at h
  · cases h
  rename_i gid r9 heq9
  split at h
  · cases h
  rename_i size r10 heq10
  split at h
  · cases h
  rename_i oid_bytes r11 heq11
  split at h
  · cases h
  rename_i flags r12 heq12
  have l1 := read_u32_be_length heq1
  have l2 := read_u32_be_length heq2
  have l3 := read_u32_be_length heq3
  have l4 := read_u32_be_length heq4
  have l5 := read_u32_be_length heq5
  have l6 := read_u32_be_length heq6
  have l7 := read_u32_be_length heq7
  have l8 := read_u32_be_length heq8
  have l9 := read_u32_be_length heq9
  have l10 := read_u32_be_length heq10
  have l11 := (readBytes_length heq11).2
  have l12 := read_u16_be_length heq12
  split at h
  · split at h
    · cases h
    rename_i xext r13 heq13
    have l13 := read_u16_be_length heq13
    have lt := parse_entry_tail_length h
    omega
  · have lt := parse_entry_tail_length h
    omega

/-- Lengths through the entry loop. -/
lemma parse_entries_length {version : Nat} : ∀ {n : Nat} {rem : List Nat}
    {es : List IndexEntry} {l : List Nat},
    parse_entries version n rem = .ok (es, l) → l.length ≤ rem.length := by
  intro n
  induction n with
  | zero =>
    intro rem es l h
    rw [parse_entries] at h
    cases h
    exact le_refl _
  | succ n ih =>
    intro rem es l h
    rw [parse_entries] at h
    split at h
    · cases h
    rename_i e rem2 heq
    split at h
    · cases h
    rename_i es2 rem3 heq2
    cases h
    have h1 := parse_entry_length heq
    have h2 := ih heq2
    omega

/-! ### Suffix stability of the reader (claim C9)

Each phase below is shown to read only bytes of `m` whenever its
leftover still contains the whole tail `s₁`; the tail can then be
replaced by anything without changing the phase's output. -/

/-- `readBytes` stability: a read whose leftover retains the tail reads
within `m` only. -/
lemma readBytes_stable {k : Nat} {m s₁ x r : List Nat}
    (h : readBytes k (m ++ s₁) = some (x, r)) (hlen : s₁.length ≤ r.length) :
    k ≤ m.length ∧ x = m.take k ∧ r = m.drop k ++ s₁ ∧
      ∀ s₂, readBytes k (m ++ s₂) = some (m.take k, m.drop k ++ s₂) := by
  rw [readBytes] at h
  split at h
  · rename_i hk
    cases h
    rw [List.length_append] at hk
    have hkm : k ≤ m.length := by
      rw [List.length_drop, List.length_append] at hlen
      omega
    refine ⟨hkm, List.take_append_of_le_length hkm, List.drop_append_of_le_length hkm, ?_⟩
    intro s₂
    rw [readBytes, if_pos (by rw [List.length_append]; omega),
      List.take_append_of_le_length hkm, List.drop_append_of_le_length hkm]
  · cases h

/-- `read_u32_be` stability. -/
lemma read_u32_be_stable {m s₁ : List Nat} {v : Nat} {r : List Nat}
    (h : read_u32_be (m ++ s₁) = some (v, r)) (hlen : s₁.length ≤ r.length) :
    r = m.drop 4 ++ s₁ ∧ ∀ s₂, read_u32_be (m ++ s₂) = some (v, m.drop 4 ++ s₂) := by
  rw [read_u32_be] at h
  split at h
  · rename_i bs rest heq
    cases h
    obtain ⟨hkm, hbs, hrest, hstab⟩ := readBytes_stable heq hlen
    refine ⟨hrest, ?_⟩
    intro s₂
    rw [read_u32_be, hstab s₂, ← hbs]
  · cases h

/-- `read_u16_be` stability. -/
lemma read_u16_be_stable {m s₁ : List Nat} {v : Nat} {r : List Nat}
    (h : read_u16_be (m ++ s₁) = some (v, r)) (hlen : s₁.length ≤ r.length) :
    r = m.drop 2 ++ s₁ ∧ ∀ s₂, read_u16_be (m ++ s₂) = some (v, m.drop 2 ++ s₂) := by
  rw [read_u16_be] at h
  split at h
  · rename_i bs rest heq
    cases h
    obtain ⟨hkm, hbs, hrest, hstab⟩ := readBytes_stable heq hlen
    refine ⟨hrest, ?_⟩
    intro s₂
    rw [read_u16_be, hstab s₂, ← hbs]
  · cases h

/-- `read_until_nul` stability: when the leftover retains the whole
non-empty tail, the NUL was found inside `m`. -/
lemma read_until_nul_stable : ∀ {m : List Nat} {s₁ name r : List Nat},
    read_until_nul (m ++ s₁) = some (name, r) → s₁.length ≤ r.length → 0 < s₁.length →
    ∃ j, j < m.length ∧ name = m.take j ∧ r = m.drop (j+1) ++ s₁ ∧
      ∀ s₂, read_until_nul (m ++ s₂) = some (name, m.drop (j+1) ++ s₂) := by
  intro m
  induction m with
  | nil =>
    intro s₁ name r h hlen h0
    have := read_until_nul_length h
    simp at this
    omega
  | cons b m ih =>
    intro s₁ name r h hlen h0
    rw [List.cons_append, read_until_nul] at h
    split at h
    · rename_i hb
      cases h
      refine ⟨0, by simp, rfl, by simp, ?_⟩
      intro s₂
      rw [List.cons_append, read_until_nul, if_pos hb]
      simp
    · rename_i hb
      split at h
      · rename_i bs rem2 heq
        cases h
        obtain ⟨j, hj, hname, hr, hstab⟩ := ih heq hlen h0
        refine ⟨j + 1, by simp; omega, by rw [hname]; rfl, hr, ?_⟩
        intro s₂
        rw [List.cons_append, read_until_nul, if_neg hb, hstab s₂, hname]
        rfl
      · cases h

/-- `skip_padding_go` stability: when the loop leaves strictly more
than the tail, it stopped inside `m` and does so for any tail. -/
lemma skip_padding_go_stable : ∀ {m : List Nat} {fuel₁ consumed es : Nat}
    {s₁ : List Nat},
    m.length + 1 ≤ fuel₁ →
    s₁.length < (skip_padding_go fuel₁ consumed es (m ++ s₁)).length →
    ∃ j, j ≤ m.length ∧ skip_padding_go fuel₁ consumed es (m ++ s₁) = m.drop j ++ s₁ ∧
      ∀ fuel₂ s₂, m.length + 1 ≤ fuel₂ →
        skip_padding_go fuel₂ consumed es (m ++ s₂) = m.drop j ++ s₂ := by
  intro m
  induction m with
  | nil =>
    intro fuel₁ consumed es s₁ hf₁ hlen
    have := skip_padding_go_le fuel₁ consumed es s₁
    simp at hlen
    omega
  | cons b m ih =>
    intro fuel₁ consumed es s₁ hf₁ hlen
    obtain ⟨f₁, rfl⟩ : ∃ f, fuel₁ = f + 1 := ⟨fuel₁ - 1, by omega⟩
    by_cases hcond : consumed > es ∧ consumed % 8 = 0
    · have hv : ∀ (f : Nat) (s : List Nat),
          skip_padding_go (f+1) consumed es ((b :: m) ++ s) = (b :: m) ++ s := by
        intro f s
        simp only [skip_padding_go]
        rw [if_pos hcond]
      refine ⟨0, by simp, ?_, ?_⟩
      · rw [hv]
        simp
      · intro fuel₂ s₂ hf₂
        obtain ⟨f₂, rfl⟩ : ∃ f, fuel₂ = f + 1 := ⟨fuel₂ - 1, by omega⟩
        rw [hv]
        simp
    · by_cases hb : b ≠ 0
      · have hv : ∀ (f : Nat) (s : List Nat),
            skip_padding_go (f+1) consumed es ((b :: m) ++ s) = (b :: m) ++ s := by
          intro f s
          simp only [skip_padding_go]
          rw [if_neg hcond, List.cons_append]
          show (if b ≠ 0 then b :: (m ++ s)
            else skip_padding_go f (consumed+1) es (m ++ s)) = b :: m ++ s
          rw [if_pos hb]
          rfl
        refine ⟨0, by simp, ?_, ?_⟩
        · rw [hv]
          simp
        · intro fuel₂ s₂ hf₂
          obtain ⟨f₂, rfl⟩ : ∃ f, fuel₂ = f + 1 := ⟨fuel₂ - 1, by omega⟩
          rw [hv]
          simp
      · have hv : ∀ (f : Nat) (s : List Nat),
            skip_padding_go (f+1) consumed es ((b :: m) ++ s) =
              skip_padding_go f (consumed+1) es (m ++ s) := by
          intro f s
          simp only [skip_padding_go]
          rw [if_neg hcond, List.cons_append]
          show (if b ≠ 0 then b :: (m ++ s)
            else skip_padding_go f (consumed+1) es (m ++ s)) =
            skip_padding_go f (consumed+1) es (m ++ s)
          rw [if_neg hb]
        rw [hv] at hlen
        obtain ⟨j, hj, h1, h2⟩ := ih (show m.length + 1 ≤ f₁ by simp at hf₁; omega) hlen
        refine ⟨j + 1, by simp; omega, ?_, ?_⟩
        · rw [hv, h1]
          rfl
        · intro fuel₂ s₂ hf₂
          obtain ⟨f₂, rfl⟩ : ∃ f, fuel₂ = f + 1 := ⟨fuel₂ - 1, by omega⟩
          rw [hv, h2 f₂ s₂ (by simp at hf₂; omega)]
          rfl

/-- Stability of the entry tail: when the leftover retains the whole
tail `s₁`, either the run stayed strictly inside `m` and any
replacement tail yields the same entry with the corresponding leftover,
or the leftover is exactly the tail (the final padding skip may peek at
its first byte) and any replacement still yields the same entry. -/
lemma parse_entry_tail_stable {consumed ctime mtime dev ino : Nat} {mode : FileMode}
    {uid gid size : Nat} {oid : Oid} {flags : Nat} {m s₁ : List Nat}
    {e : IndexEntry} {r₁ : List Nat}
    (h : parse_entry_tail consumed ctime mtime dev ino mode uid gid size oid flags (m ++ s₁)
      = .ok (e, r₁))
    (hr : s₁.length ≤ r₁.length) (h0 : 0 < s₁.length) :
    (∃ m₁, r₁ = m₁ ++ s₁ ∧ ∀ s₂, parse_entry_tail consumed ctime mtime dev ino mode
        uid gid size oid flags (m ++ s₂) = .ok (e, m₁ ++ s₂)) ∨
    (r₁.length = s₁.length ∧ ∀ s₂, ∃ r₂, parse_entry_tail consumed ctime mtime dev ino mode
        uid gid size oid flags (m ++ s₂) = .ok (e, r₂)) := by
  rw [parse_entry_tail] at h
  by_cases hLong : flags &&& 0x0FFF = 0x0FFF
  · rw [if_pos hLong] at h
    split at h
    · cases h
    rename_i name rem2 heq
    split at h
    · rename_i hutf
      cases h
      obtain ⟨j, hj, hname, hrem, hstab⟩ := read_until_nul_stable heq hr h0
      left
      refine ⟨m.drop (j+1), hrem, ?_⟩
      intro s₂
      rw [parse_entry_tail, if_pos hLong]
      simp only [hstab]
      rw [if_pos hutf]
    · cases h
  · rw [if_neg hLong] at h
    split at h
    · cases h
    rename_i name rem2 heq
    split at h
    · rename_i hutf
      cases h
      have hle : (skip_padding (consumed + (flags &&& 0x0FFF)) (consumed + (flags &&& 0x0FFF))
          rem2).length ≤ rem2.length := skip_padding_go_le _ _ _ _
      obtain ⟨hkm, hname, hrem2, hstab⟩ := readBytes_stable heq (by omega)
      subst hname
      subst hrem2
      rcases Nat.lt_or_ge s₁.length
          ((skip_padding (consumed + (flags &&& 0x0FFF)) (consumed + (flags &&& 0x0FFF))
            (m.drop (flags &&& 0x0FFF) ++ s₁)).length) with hstrict | hge
      · rw [skip_padding] at hstrict
        obtain ⟨j, hj, h1, h2⟩ := skip_padding_go_stable (by simp) hstrict
        left
        refine ⟨(m.drop (flags &&& 0x0FFF)).drop j, ?_, ?_⟩
        · rw [skip_padding, h1]
        · intro s₂
          rw [parse_entry_tail, if_neg hLong]
          simp only [hstab]
          rw [if_pos hutf, skip_padding, h2 _ s₂ (by simp)]
      · right
        refine ⟨by omega, ?_⟩
        intro s₂
        refine ⟨skip_padding (consumed + (flags &&& 0x0FFF)) (consumed + (flags &&& 0x0FFF))
          (m.drop (flags &&& 0x0FFF) ++ s₂), ?_⟩
        rw [parse_entry_tail, if_neg hLong]
        simp only [hstab]
        rw [if_pos hutf]
    · cases h

/-- Stability of `parse_entry`: a successful parse whose leftover
retains the whole tail is unchanged — same entry — under any
replacement of the tail. -/
lemma parse_entry_stable {version : Nat} {m s₁ : List Nat} {e : IndexEntry} {r₁ : List Nat}
    (h : parse_entry version (m ++ s₁) = .ok (e, r₁))
    (hr : s₁.length ≤ r₁.length) (h0 : 0 < s₁.length) :
    (∃ m₁, r₁ = m₁ ++ s₁ ∧ ∀ s₂, parse_entry version (m ++ s₂) = .ok (e, m₁ ++ s₂)) ∨
    (r₁.length = s₁.length ∧ ∀ s₂, ∃ r₂, parse_entry version (m ++ s₂) = .ok (e, r₂)) := by
  rw [parse_entry] at h
  split at h
  · cases h
  rename_i ctime r1 heq1
  split at h
  · cases h
  rename_i x2 r2 heq2
  split at h
  · cases h
  rename_i mtime r3 heq3
  split at h
  · cases h
  rename_i x4 r4 heq4
  split at h
  · cases h
  rename_i dev r5 heq5
  split at h
  · cases h
  rename_i ino r6 heq6
  split at h
  · cases h
  rename_i mode_raw r7 heq7
  split at h
  · cases h
  rename_i mode heqm
  split at h
  · cases h
  rename_i uid r8 heq8
  split at h
  · cases h
  rename_i gid r9 heq9
  split at h
  · cases h
  rename_i size r10 heq10
  split at h
  · cases h
  rename_i oid_bytes r11 heq11
  split at h
  · cases h
  rename_i flags r12 heq12
  have l1 := read_u32_be_length heq1
  have l2 := read_u32_be_length heq2
  have l3 := read_u32_be_length heq3
  have l4 := read_u32_be_length heq4
  have l5 := read_u32_be_length heq5
  have l6 := read_u32_be_length heq6
  have l7 := read_u32_be_length heq7
  have l8 := read_u32_be_length heq8
  have l9 := read_u32_be_length heq9
  have l10 := read_u32_be_length heq10
  have l11 := (readBytes_length heq11).2
  have l12 := read_u16_be_length heq12
  split at h
  · -- extended flags present
    rename_i hext
    split at h
    · cases h
    rename_i xext r13 heq13
    have l13 := read_u16_be_length heq13
    have ltail := parse_entry_tail_length h
    obtain ⟨hd1, hstab1⟩ := read_u32_be_stable heq1 (by omega)
    rw [hd1] at heq2
    obtain ⟨hd2, hstab2⟩ := read_u32_be_stable heq2 (by omega)
    rw [hd2] at heq3
    obtain ⟨hd3, hstab3⟩ := read_u32_be_stable heq3 (by omega)
    rw [hd3] at heq4
    obtain ⟨hd4, hstab4⟩ := read_u32_be_stable heq4 (by omega)
    rw [hd4] at heq5
    obtain ⟨hd5, hstab5⟩ := read_u32_be_stable heq5 (by omega)
    rw [hd5] at heq6
    obtain ⟨hd6, hstab6⟩ := read_u32_be_stable heq6 (by omega)
    rw [hd6] at heq7
    obtain ⟨hd7, hstab7⟩ := read_u32_be_stable heq7 (by omega)
    rw [hd7] at heq8
    obtain ⟨hd8, hstab8⟩ := read_u32_be_stable heq8 (by omega)
    rw [hd8] at heq9
    obtain ⟨hd9, hstab9⟩ := read_u32_be_stable heq9 (by omega)
    rw [hd9] at heq10
    obtain ⟨hd10, hstab10⟩ := read_u32_be_stable heq10 (by omega)
    rw [hd10] at heq11
    obtain ⟨hk11, hob, hd11, hstab11⟩ := readBytes_stable heq11 (by omega)
    subst hob
    rw [hd11] at heq12
    obtain ⟨hd12, hstab12⟩ := read_u16_be_stable heq12 (by omega)
    rw [hd12] at heq13
    obtain ⟨hd13, hstab13⟩ := read_u16_be_stable heq13 (by omega)
    rw [hd13] at h
    rcases parse_entry_tail_stable h hr h0 with ⟨m₁, hm₁, htail⟩ | ⟨hlen, htail⟩
    · left
      refine ⟨m₁, hm₁, ?_⟩
      intro s₂
      rw [parse_entry]
      simp only [hstab1, hstab2, hstab3, hstab4, hstab5, hstab6, hstab7, heqm,
        hstab8, hstab9, hstab10, hstab11, hstab12, hstab13]
      rw [if_pos hext]
      exact htail s₂
    · right
      refine ⟨hlen, ?_⟩
      intro s₂
      obtain ⟨r₂, h₂⟩ := htail s₂
      refine ⟨r₂, ?_⟩
      rw [parse_entry]
      simp only [hstab1, hstab2, hstab3, hstab4, hstab5, hstab6, hstab7, heqm,
        hstab8, hstab9, hstab10, hstab11, hstab12, hstab13]
      rw [if_pos hext]
      exact h₂
  · -- no extended flags
    rename_i hext
    have ltail := parse_entry_tail_length h
    obtain ⟨hd1, hstab1⟩ := read_u32_be_stable heq1 (by omega)
    rw [hd1] at heq2
    obtain ⟨hd2, hstab2⟩ := read_u32_be_stable heq2 (by omega)
    rw [hd2] at heq3
    obtain ⟨hd3, hstab3⟩ := read_u32_be_stable heq3 (by omega)
    rw [hd3] at heq4
    obtain ⟨hd4, hstab4⟩ := read_u32_be_stable heq4 (by omega)
    rw [hd4] at heq5
    obtain ⟨hd5, hstab5⟩ := read_u32_be_stable heq5 (by omega)
    rw [hd5] at heq6
    obtain ⟨hd6, hstab6⟩ := read_u32_be_stable heq6 (by omega)
    rw [hd6] at heq7
    obtain ⟨hd7, hstab7⟩ := read_u32_be_stable heq7 (by omega)
    rw [hd7] at heq8
    obtain ⟨hd8, hstab8⟩ := read_u32_be_stable heq8 (by omega)
    rw [hd8] at heq9
    obtain ⟨hd9, hstab9⟩ := read_u32_be_stable heq9 (by omega)
    rw [hd9] at heq10
    obtain ⟨hd10, hstab10⟩ := read_u32_be_stable heq10 (by omega)
    rw [hd10] at heq11
    obtain ⟨hk11, hob, hd11, hstab11⟩ := readBytes_stable heq11 (by omega)
    subst hob
    rw [hd11] at heq12
    obtain ⟨hd12, hstab12⟩ := read_u16_be_stable heq12 (by omega)
    rw [hd12] at h
    rcases parse_entry_tail_stable h hr h0 with ⟨m₁, hm₁, htail⟩ | ⟨hlen, htail⟩
    · left
      refine ⟨m₁, hm₁, ?_⟩
      intro s₂
      rw [parse_entry]
      simp only [hstab1, hstab2, hstab3, hstab4, hstab5, hstab6, hstab7, heqm,
        hstab8, hstab9, hstab10, hstab11, hstab12]
      rw [if_neg hext]
      exact htail s₂
    · right
      refine ⟨hlen, ?_⟩
      intro s₂
      obtain ⟨r₂, h₂⟩ := htail s₂
      refine ⟨r₂, ?_⟩
      rw [parse_entry]
      simp only [hstab1, hstab2, hstab3, hstab4, hstab5, hstab6, hstab7, heqm,
        hstab8, hstab9, hstab10, hstab11, hstab12]
      rw [if_neg hext]
      exact h₂

/-- Stability of `parse_header`: the header reads only the first 12
bytes. -/
lemma parse_header_stable {pre s₁ : List Nat} {version count : Nat} {rem : List Nat}
    (h : parse_header (pre ++ s₁) = .ok (version, count, rem))
    (hlen : s₁.length ≤ rem.length) :
    rem = ((pre.drop 4).drop 4).drop 4 ++ s₁ ∧
      ∀ s₂, parse_header (pre ++ s₂) =
        .ok (version, count, ((pre.drop 4).drop 4).drop 4 ++ s₂) := by
  rw [parse_header] at h
  split at h
  · cases h
  rename_i sig rem1 heq1
  split at h
  · cases h
  rename_i hsig
  split at h
  · cases h
  rename_i v0 rem2 heq2
  split at h
  · cases h
  rename_i hver
  split at h
  · cases h
  rename_i c0 rem3 heq3
  cases h
  have l2 := read_u32_be_length heq2
  have l3 := read_u32_be_length heq3
  obtain ⟨hk1, hsig1, hd1, hstab1⟩ := readBytes_stable heq1 (by omega)
  subst hsig1
  rw [hd1] at heq2
  obtain ⟨hd2, hstab2⟩ := read_u32_be_stable heq2 (by omega)
  rw [hd2] at heq3
  obtain ⟨hd3, hstab3⟩ := read_u32_be_stable heq3 (by omega)
  refine ⟨hd3, ?_⟩
  intro s₂
  rw [parse_header]
  simp only [hstab1, hstab2, hstab3]
  rw [if_neg hsig, if_neg hver]

/-- Stability of the entry loop: a run of `n` entries whose final
leftover retains the 20-byte tail parses the same entries for any
replacement tail. -/
lemma parse_entries_stable {version : Nat} : ∀ (n : Nat) (m s₁ : List Nat)
    (es : List IndexEntry) (l₁ : List Nat),
    s₁.length = 20 → parse_entries version n (m ++ s₁) = .ok (es, l₁) → 20 ≤ l₁.length →
    ∀ s₂, ∃ l₂, parse_entries version n (m ++ s₂) = .ok (es, l₂) := by
  intro n
  induction n with
  | zero =>
    intro m s₁ es l₁ hs h hl s₂
    rw [parse_entries] at h
    cases h
    exact ⟨m ++ s₂, by rw [parse_entries]⟩
  | succ n ih =>
    intro m s₁ es l₁ hs h hl s₂
    rw [parse_entries] at h
    split at h
    · cases h
    rename_i e rem2 heq
    split at h
    · cases h
    rename_i es2 rem3 heq2
    cases h
    have hrem2 : 20 ≤ rem2.length := le_trans hl (parse_entries_length heq2)
    rcases parse_entry_stable heq (by omega) (by omega) with ⟨m₁, hm₁, hstab⟩ | ⟨hlen, hstab⟩
    · rw [hm₁] at heq2
      obtain ⟨l₂, h₂⟩ := ih m₁ s₁ es2 l₁ hs heq2 hl s₂
      refine ⟨l₂, ?_⟩
      rw [parse_entries]
      simp only [hstab, h₂]
    · -- the leftover after this entry is exactly the 20-byte tail:
      -- no further entry fits, so the loop count must be zero here
      cases n with
      | zero =>
        rw [parse_entries] at heq2
        cases heq2
        obtain ⟨r₂, h₂⟩ := hstab s₂
        refine ⟨r₂, ?_⟩
        rw [parse_entries]
        simp only [h₂, parse_entries]
      | succ n' =>
        exfalso
        rw [parse_entries] at heq2
        split at heq2
        · cases heq2
        rename_i e2 rem4 heq3
        have := parse_entry_length heq3
        omega

/-- C9: index parsing never reads the trailing 20-byte checksum.  For
any input `pre ++ s₁` with a 20-byte tail on which `parse` succeeds
with at least 20 unread leftover bytes — i.e. the header and all
declared entries fit before the final 20 bytes — replacing the tail by
anything at all (a corrupted checksum, a shorter sequence, or nothing)
yields the same parsed index, never an error. -/
theorem parse_ignores_trailing_checksum (pre s₁ : List Nat) (I : Index) (l₁ : List Nat)
    (hs₁ : s₁.length = 20)
    (h : parse_full (pre ++ s₁) = .ok (I, l₁)) (hl : 20 ≤ l₁.length) :
    ∀ s₂, parse (pre ++ s₂) = .ok I := by
  intro s₂
  rw [parse_full] at h
  split at h
  · cases h
  rename_i version count rem heq
  split at h
  · cases h
  rename_i entries rem2 heq2
  cases h
  have hrem : 20 ≤ rem.length := le_trans hl (parse_entries_length heq2)
  obtain ⟨hd, hstab⟩ := parse_header_stable heq (by omega)
  rw [hd] at heq2
  obtain ⟨l₂, h₂⟩ := parse_entries_stable count _ s₁ entries l₁ hs₁ heq2 hl s₂
  rw [parse, parse_full]
  simp only [hstab, h₂]

set_option maxRecDepth 1000000 in
/-- Witness for C9: a one-entry index image followed by a zeroed
checksum parses with the checksum left over; replacing those 20 bytes
by three unrelated bytes yields the same index. -/
theorem parse_ignores_trailing_checksum_witness :
    parse (index_body sampleIndex ++ [1, 2, 3]) = .ok sampleIndex :=
  parse_ignores_trailing_checksum (index_body sampleIndex) (List.replicate 20 0)
    sampleIndex (List.replicate 20 0) (by decide) (by decide) (by decide) [1, 2, 3]
